import Mathlib

/-!
Verification of the Logseqer plugin's reconciliation and fix-application
engine.  The definitions below are shallow embeddings of the TypeScript
source (main plugin file): pure functions mirror the code's string and list
manipulation, stateful loops become explicit folds over a state record, and
the host application's I/O results appear as explicit parameters.
-/

namespace Logseqer

/-! ## Data model -/

/-- A bookmark item of the JSON bookmark store: `{type, path?, ctime?}`.
`path` and `ctime` are optional in the source interface. -/
structure BookmarkItem where
  type : String
  path : Option String
  ctime : Option Nat
  deriving Repr, DecidableEq

/-- A corpus file: path plus basename (an Obsidian `TFile` as the engine
sees it). -/
structure VFile where
  path : String
  basename : String
  deriving Repr, DecidableEq

/-! ## C9: pages-folder determination (`LogseqerPlugin.getPagesFolder`)

The folder enumeration `this.app.vault.getAllLoadedFiles()...` either yields
a list of folder paths or throws; both outcomes are passed in explicitly as
an `Except`. -/

/-- Mirrors `getPagesFolder`: prefer an exact `pages` folder, then any
`pages`-rooted folder, and fall back to `'pages'` on failure or no match. -/
def getPagesFolder (foldersOrErr : Except Unit (List String)) : String :=
  match foldersOrErr with
  | .error _ => "pages"
  | .ok folders =>
    if folders.contains "pages" then "pages"
    else
      match folders.find? (fun p => p = "pages" || p.startsWith "pages/") with
      | some _ => "pages"
      | none => "pages"

/-! ## C1: ambiguous-commit step (`SyncResolutionModal.executeSync`)

`selectedAmbiguous` is a JS `Map` from page name to the user-selected file
path, modelled as its entry list in insertion order: `(key, value) =
(pageName, selectedFilePath)`.  JS `Map.prototype.forEach` passes the
callback `(value, key, map)`; the source callback is written
`(_name, path) => ...`, so its binder `path` receives the map KEY (the page
name) and `_name` receives the VALUE (the selected file path).  The pushed
item therefore carries the page name in its `path` field. -/

/-- Default selection built by the `SyncResolutionModal` constructor:
for each ambiguous page with at least one candidate, map its name to the
first candidate's path. -/
def defaultAmbiguousSelection (ambiguousPages : List (String × List VFile)) :
    List (String × String) :=
  ambiguousPages.filterMap (fun p =>
    match p.2 with
    | [] => none
    | f :: _ => some (p.1, f.path))

/-- Mirrors the ambiguous part of `SyncResolutionModal.executeSync`:
for each entry of `selectedAmbiguous` push `{type:'file', ctime:now, path}`
where — because of the swapped `forEach` parameters — `path` is the entry's
KEY, i.e. the page name `e.1`, not the selected file path `e.2`. -/
def executeSyncAmbiguous (items : List BookmarkItem) (now : Nat)
    (selectedAmbiguous : List (String × String)) : List BookmarkItem :=
  items ++ selectedAmbiguous.map (fun e =>
    { type := "file", path := some e.1, ctime := some now })

/-! ## C7: `SettingsUpdate` fix application
(`VaultCheckResolutionModal.applyFixes`, `settings-update` branch)

The target config file's state is passed in explicitly:
`none` = the file does not exist, `some none` = it exists but
`JSON.parse` throws, `some (some obj)` = it parses to the object `obj`.
A parsed JSON object is modelled as an association list of key/value pairs
(JSON objects have unique keys after parsing; the value type is abstract). -/

/-- Mirrors the read-and-default step: `let data = {}; if (exists) { try
{ data = JSON.parse(txt) } catch { data = {} } }`. -/
def readConfigObj {V : Type} (file : Option (Option (List (String × V)))) :
    List (String × V) :=
  match file with
  | none => []
  | some none => []
  | some (some obj) => obj

/-- JS property assignment `data[key] = value` on a parsed object:
overwrite the entry if the key is present, append it otherwise. -/
def jsSet {V : Type} (obj : List (String × V)) (k : String) (v : V) :
    List (String × V) :=
  if obj.any (fun p => p.1 = k) then
    obj.map (fun p => if p.1 = k then (k, v) else p)
  else obj ++ [(k, v)]

/-- JS property read `data[key]` (first matching entry). -/
def objGet {V : Type} (obj : List (String × V)) (k : String) : Option V :=
  (obj.find? (fun p => p.1 = k)).map (fun p => p.2)

/-- Mirrors the whole `settings-update` branch: read-with-default, set one
key, and hand the object back to `JSON.stringify` for the write. -/
def applySettingsUpdate {V : Type}
    (file : Option (Option (List (String × V)))) (k : String) (v : V) :
    List (String × V) :=
  jsSet (readConfigObj file) k v

/-! ## C10: namespace content rewrite
(`VaultCheckResolutionModal.applyFixes`, `namespace-rename` branch,
content mutation only) -/

/-- JS `String.prototype.includes`: substring containment. -/
def containsL (pat : List Char) : List Char → Bool
  | [] => pat.isPrefixOf []
  | c :: t => pat.isPrefixOf (c :: t) || containsL pat t

/-- JS `String.prototype.indexOf(pat)` on a char list: index of the first
occurrence of `pat`, if any. -/
def findSubGo (pat : List Char) : List Char → Option Nat
  | [] => if pat.isPrefixOf ([] : List Char) then some 0 else none
  | c :: t =>
    if pat.isPrefixOf (c :: t) then some 0
    else (findSubGo pat t).map (fun n => n + 1)

/-- The `tags:` line prefix built by the fix. -/
def tagsLineOf (namespacePath : List Char) : List Char :=
  't' :: 'a' :: 'g' :: 's' :: ':' :: ' ' :: namespacePath

/-- Mirrors the content mutation of the `namespace-rename` branch: if the
content already `includes` the tags line, leave it alone; otherwise insert
the tags line after the frontmatter closing `---` (found by
`content.indexOf('---', 3)`) when the content starts with `---`, or prepend
`tagsLine + "\n\n"` otherwise (also when the frontmatter is malformed). -/
def namespaceRewrite (content : List Char) (namespacePath : List Char) :
    List Char :=
  let tagsLine := tagsLineOf namespacePath
  if containsL tagsLine content then content
  else
    if ['-', '-', '-'].isPrefixOf content then
      match (findSubGo ['-', '-', '-'] (content.drop 3)).map (fun n => n + 3) with
      | some fmEnd =>
        content.take (fmEnd + 3) ++ '\n' :: tagsLine ++ '\n' :: content.drop (fmEnd + 3)
      | none => tagsLine ++ '\n' :: '\n' :: content
    else tagsLine ++ '\n' :: '\n' :: content

/-! ## C3/C5: direct-add step (`LogseqerPlugin.syncLogseqToObsidian`)

The loop over favorite page names categorizes each name against the
basename index and the existing bookmark paths, staging unique matches as
immediate additions.  The loop is embedded as a fold over an explicit
state record. -/

/-- Mirrors `new Set(bookmarkContent.items.map(item => item.path || '')
.filter(path => path.length > 0))`: the paths of all items, with absent or
empty paths dropped. -/
def pathsOf (items : List BookmarkItem) : List String :=
  (items.map (fun i => i.path.getD "")).filter (fun p => p ≠ "")

/-- Mirrors the basename index: `fileMap.get(name)` yields all markdown
files with that basename, in corpus enumeration order (the map is built by
pushing files in `getMarkdownFiles()` order). -/
def buildFileMap (files : List VFile) (name : String) : List VFile :=
  files.filter (fun f => f.basename = name)

/-- The loop state of the categorize-pages pass. -/
structure SyncState where
  items : List BookmarkItem
  existing : List String
  added : Nat
  missing : List String
  ambiguous : List (String × List VFile)
  deriving Repr, DecidableEq

/-- One iteration of the categorize loop: 0 matches → missing; 1 match →
push a `{type:'file', ctime:now, path}` item unless the path is already
present; ≥ 2 matches → ambiguous unless some match is already bookmarked
(then drop silently). -/
def processPage (fileMap : String → List VFile) (now : Nat)
    (st : SyncState) (name : String) : SyncState :=
  match fileMap name with
  | [] => { st with missing := st.missing ++ [name] }
  | [f] =>
    if f.path ∈ st.existing then st
    else
      { st with
        items := st.items ++ [{ type := "file", path := some f.path, ctime := some now }],
        existing := st.existing ++ [f.path],
        added := st.added + 1 }
  | f :: g :: rest =>
    if (f :: g :: rest).any (fun m => decide (m.path ∈ st.existing)) then st
    else { st with ambiguous := st.ambiguous ++ [(name, f :: g :: rest)] }

/-- Initial loop state: all staged collections empty, `existing` seeded
from the freshly read bookmark store. -/
def initState (items : List BookmarkItem) : SyncState :=
  { items := items, existing := pathsOf items, added := 0, missing := [],
    ambiguous := [] }

/-- The whole direct-add step: build the basename index once, then fold the
categorize loop over the favorite page names. -/
def runDirectAdd (files : List VFile) (now : Nat) (items : List BookmarkItem)
    (pages : List String) : SyncState :=
  pages.foldl (processPage (buildFileMap files) now) (initState items)

/-! ## C6: date-format translation (`LogseqerPlugin.runVaultCheckCommand`)

`logseqDateFormat.replace(/yyyy/g,'YYYY').replace(/MM/g,'MM')
.replace(/dd/g,'DD').replace(/_/g,'-')` — four global literal replaces in
sequence. -/

/-- JS `String.replace(/lit/g, repl)` for a literal pattern: scan left to
right, replace each non-overlapping occurrence, continue after the matched
text.  Fuel-based for executability; every scan step consumes at least one
input character (the patterns used are nonempty), so the input length is
always enough fuel. -/
def replaceAllGo (pat repl : List Char) : Nat → List Char → List Char
  | _, [] => []
  | 0, l => l
  | fuel + 1, c :: cs =>
    if pat.isPrefixOf (c :: cs) then
      repl ++ replaceAllGo pat repl fuel ((c :: cs).drop pat.length)
    else c :: replaceAllGo pat repl fuel cs

/-- One global literal replace pass. -/
def replaceAllL (pat repl l : List Char) : List Char :=
  replaceAllGo pat repl l.length l

/-- Mirrors the derivation of the expected Obsidian daily-note format from
the Logseq `:journal/page-title-format` value. -/
def deriveObsDailyFormat (fmt : String) : String :=
  String.mk (replaceAllL ['_'] ['-']
    (replaceAllL ['d', 'd'] ['D', 'D']
      (replaceAllL ['M', 'M'] ['M', 'M']
        (replaceAllL ['y', 'y', 'y', 'y'] ['Y', 'Y', 'Y', 'Y'] fmt.data))))

/-- Modelled from the spec's words for comparison with the code: the
claim's token map sends the 4-y token to the 4-Y token, passes day and
month tokens through unchanged, and sends underscore to hyphen. -/
def specDeriveObsDailyFormat (fmt : String) : String :=
  String.mk (replaceAllL ['_'] ['-']
    (replaceAllL ['y', 'y', 'y', 'y'] ['Y', 'Y', 'Y', 'Y'] fmt.data))

/-- Token alphabet of Logseq page-title-format strings: the 4-y year token,
the month and day tokens, and separator characters. -/
inductive DTok
  | y4
  | m2
  | d2
  | sep (c : Char)
  deriving Repr, DecidableEq

/-- Rendering of one token in Logseq notation. -/
def DTok.render : DTok → List Char
  | .y4 => ['y', 'y', 'y', 'y']
  | .m2 => ['M', 'M']
  | .d2 => ['d', 'd']
  | .sep c => [c]

/-- Intermediate rendering after the `yyyy → YYYY` pass. -/
def DTok.renderB : DTok → List Char
  | .y4 => ['Y', 'Y', 'Y', 'Y']
  | .m2 => ['M', 'M']
  | .d2 => ['d', 'd']
  | .sep c => [c]

/-- Intermediate rendering after the `dd → DD` pass. -/
def DTok.renderC : DTok → List Char
  | .y4 => ['Y', 'Y', 'Y', 'Y']
  | .m2 => ['M', 'M']
  | .d2 => ['D', 'D']
  | .sep c => [c]

/-- Final per-token result of the code's four replace passes. -/
def DTok.mapped : DTok → List Char
  | .y4 => ['Y', 'Y', 'Y', 'Y']
  | .m2 => ['M', 'M']
  | .d2 => ['D', 'D']
  | .sep c => [if c = '_' then '-' else c]

/-- Rendering of a token sequence. -/
def renderToks (ts : List DTok) : List Char := (ts.map DTok.render).flatten

/-- Per-token image of a token sequence under the code's translation. -/
def mappedToks (ts : List DTok) : List Char := (ts.map DTok.mapped).flatten

/-! ## C2: task-marker content replace
(`VaultCheckResolutionModal.applyFixes`, `content-replace` branch)

```
content = content.replace(/^(\s*-?\s*)(?:DONE)\b\s*:??\s*/gmi, regex-dollar-1 ++ '- [x] ')
content = content.replace(/^(\s*-?\s*)(?:TODO|DOING|NOW|LATER)\b\s*:??\s*/gmi, ... '- [ ] ')
```

The regex constructs are embedded as follows, each noted equivalence being
a property of these particular patterns:
* `\s` and the `m`-flag line terminators are modelled over their ASCII
  range (the markers and replacements are ASCII);
* `\s*-?\s*` is deterministic because `\s`, `-` and the marker head letters
  are pairwise disjoint character classes — maximal-munch span parsing
  equals the regex's greedy backtracking parse;
* the alternation `TODO|DOING|NOW|LATER` is prefix-free, so at most one
  alternative can match at a position and the `\b` test can be checked
  after the first (hence only) matching alternative;
* the trailing `\s*:??\s*` is equivalent to `\s*`: the lazy optional colon
  sits at the end of the pattern, so the leftmost-lazy successful parse
  never consumes a colon;
* a `g`-replace continues scanning the source after the matched span, and
  `^` (with `m`) holds at position 0 and right after a line terminator. -/

/-- JS `\s` (ASCII range). -/
def isWsChar (c : Char) : Bool :=
  c = ' ' || c = '\t' || c = '\n' || c = '\r' || c = '\x0b' || c = '\x0c'

/-- JS word character (for `\b`). -/
def isWordChar (c : Char) : Bool :=
  c.isAlpha || c.isDigit || c = '_'

/-- JS `m`-flag line terminators (ASCII range). -/
def isNewlineChar (c : Char) : Bool :=
  c = '\n' || c = '\r'

/-- Case-insensitive prefix test: the pattern alternatives are uppercase
and the regexes carry the `i` flag, so input characters are uppercased for
comparison. -/
def isPrefixCI : List Char → List Char → Bool
  | [], _ => true
  | _ :: _, [] => false
  | p :: ps, c :: cs => (c.toUpper == p) && isPrefixCI ps cs

/-- Try the marker alternatives in source order; return the matched input
span and the rest. -/
def matchAlt (alts : List (List Char)) (l : List Char) :
    Option (List Char × List Char) :=
  match alts with
  | [] => none
  | a :: rest =>
    if isPrefixCI a l then some (l.take a.length, l.drop a.length)
    else matchAlt rest l

/-- The capture `^(\s*-?\s*)`: maximal whitespace, one optional dash,
maximal whitespace. -/
def matchDashPrefix (l : List Char) : List Char × List Char :=
  let w1 := l.takeWhile isWsChar
  let r1 := l.dropWhile isWsChar
  match r1 with
  | [] => (w1, r1)
  | c :: r2 =>
    if c = '-' then (w1 ++ c :: r2.takeWhile isWsChar, r2.dropWhile isWsChar)
    else (w1, r1)

/-- Whole-pattern match at one `^` position:
`(\s*-?\s*)(?:ALTS)\b\s*:??\s*`; returns (capture group 1, matched span,
rest of the input). -/
def matchMarkerAt (alts : List (List Char)) (l : List Char) :
    Option (List Char × List Char × List Char) :=
  let pr := matchDashPrefix l
  match matchAlt alts pr.2 with
  | none => none
  | some (mstr, r2) =>
    match r2 with
    | [] => some (pr.1, pr.1 ++ mstr, [])
    | c :: _ =>
      if isWordChar c then none
      else some (pr.1, pr.1 ++ mstr ++ r2.takeWhile isWsChar, r2.dropWhile isWsChar)

/-- Whether `^` holds right after a consumed span (its last character is a
line terminator). -/
def lastIsNewline (l : List Char) : Bool :=
  match l.getLast? with
  | some c => isNewlineChar c
  | none => false

/-- One global multiline replace pass: at each `^` position try the
pattern; on a match emit the capture followed by the fixed replacement
(the replacement strings are `'$1- [x] '` resp. `'$1- [ ] '`) and resume
after the matched span.  Fuel-based for executability; every step consumes
at least one character, so the input length is always enough fuel. -/
def replaceMarkersGo (alts : List (List Char)) (repl : List Char) :
    Nat → Bool → List Char → List Char
  | _, _, [] => []
  | 0, _, l => l
  | fuel + 1, atStart, c :: cs =>
    if atStart then
      match matchMarkerAt alts (c :: cs) with
      | some (g1, whole, rest) =>
        g1 ++ repl ++ replaceMarkersGo alts repl fuel (lastIsNewline whole) rest
      | none => c :: replaceMarkersGo alts repl fuel (isNewlineChar c) cs
    else c :: replaceMarkersGo alts repl fuel (isNewlineChar c) cs

/-- One whole `String.replace(/.../gmi, ...)` pass. -/
def replaceMarkersL (alts : List (List Char)) (repl : List Char)
    (l : List Char) : List Char :=
  replaceMarkersGo alts repl l.length true l

/-- The done-marker alternation. -/
def doneAlts : List (List Char) := [['D', 'O', 'N', 'E']]

/-- The open/in-progress/scheduled alternation, in source order. -/
def todoAlts : List (List Char) :=
  [['T', 'O', 'D', 'O'], ['D', 'O', 'I', 'N', 'G'], ['N', 'O', 'W'],
   ['L', 'A', 'T', 'E', 'R']]

/-- Replacement suffix `'- [x] '`. -/
def checkedRepl : List Char := ['-', ' ', '[', 'x', ']', ' ']

/-- Replacement suffix `'- [ ] '`. -/
def uncheckedRepl : List Char := ['-', ' ', '[', ' ', ']', ' ']

/-- Optional list-dash line prefix for the statement of C2. -/
def linePre (d : Bool) : List Char := if d then ['-', ' '] else []

/-- Mirrors the `content-replace` branch: first normalize `DONE` lines to
checked tasks, then `TODO|DOING|NOW|LATER` lines to unchecked tasks. -/
def applyTaskMarkerFix (content : String) : String :=
  String.mk (replaceMarkersL todoAlts uncheckedRepl
    (replaceMarkersL doneAlts checkedRepl content.data))

/-! ## C4/C8: favorites extraction and write-back
(`LogseqerPlugin.syncObsidianToLogseq` commit closure,
`BookmarkSyncModal.executeSync` Logseq branch — identical logic — and the
extraction shared with `syncSettings` / `syncLogseqToObsidian`)

`/:favorites\s*\[([^\]]*)\]/` is a non-global regex: the leftmost match
wins.  The greedy `\s*` before `[` is deterministic here because `[` is not
a whitespace character.  Extraction of names from the capture uses
`/"([^"]+)"/g` followed by stripping the quotes.  No comment stripping
happens on any favorites path (only the date-format read strips `;;`
lines). -/

/-- The literal `:favorites` of the pattern. -/
def favKey : List Char := [':', 'f', 'a', 'v', 'o', 'r', 'i', 't', 'e', 's']

/-- One match attempt of `/:favorites\s*\[([^\]]*)\]/` at one position:
the literal key, greedy whitespace, `[`, the capture up to the first `]`,
and `]`.  Returns (whole matched span, capture, rest of the input). -/
def matchFavAt (l : List Char) : Option (List Char × List Char × List Char) :=
  if favKey.isPrefixOf l then
    let r1 := l.drop favKey.length
    let ws := r1.takeWhile isWsChar
    let r2 := r1.dropWhile isWsChar
    match r2 with
    | [] => none
    | c :: r3 =>
      if c = '[' then
        let inner := r3.takeWhile (fun x => !(x = ']'))
        let r4 := r3.dropWhile (fun x => !(x = ']'))
        match r4 with
        | [] => none
        | c2 :: post =>
          if c2 = ']' then some (favKey ++ ws ++ c :: (inner ++ [c2]), inner, post)
          else none
      else none
  else none

/-- Leftmost match of the favorites pattern: scan positions left to right;
returns (text before the match, whole match, capture, text after). -/
def findFavGo : List Char → Option (List Char × List Char × List Char × List Char)
  | [] => none
  | c :: cs =>
    match matchFavAt (c :: cs) with
    | some (whole, inner, post) => some ([], whole, inner, post)
    | none => (findFavGo cs).map (fun r => (c :: r.1, r.2))

/-- Global scan of `/"([^"]+)"/g` over the capture, quotes stripped: at a
`"` take the nonempty run up to the next `"`; on failure (empty run or no
closing quote) resume at the next character, like the regex engine.
Fuel-based; each step consumes at least one character. -/
def quotedGo : Nat → List Char → List (List Char)
  | 0, _ => []
  | _ + 1, [] => []
  | fuel + 1, c :: cs =>
    if c = '"' then
      let tok := cs.takeWhile (fun x => !(x = '"'))
      let r := cs.dropWhile (fun x => !(x = '"'))
      match tok, r with
      | _ :: _, _ :: r2 => tok :: quotedGo fuel r2
      | _, _ => quotedGo fuel cs
    else quotedGo fuel cs

/-- The quoted tokens of a capture. -/
def quotedTokens (l : List Char) : List (List Char) := quotedGo l.length l

/-- Mirrors the favorites extraction used by every sync path: first match
of the favorites pattern over the raw text (comments are not stripped),
then the quoted tokens of the capture; an absent key yields the empty
list. -/
def extractFavoritesNames (text : List Char) : List String :=
  match findFavGo text with
  | some (_, _, inner, _) => (quotedTokens inner).map (fun t => String.mk t)
  | none => []

/-- JS `Set` insertion-order dedup (first occurrence wins). -/
def dedupGo (seen : List String) : List String → List String
  | [] => []
  | x :: xs => if x ∈ seen then dedupGo seen xs else x :: dedupGo (x :: seen) xs

/-- `Array.from(new Set(l))`. -/
def dedupFirst (l : List String) : List String := dedupGo [] l

/-- `` `"name"` `` (template literal around one name). -/
def quoteName (n : String) : List Char := '"' :: (n.data ++ ['"'])

/-- `names.map(n => quoted).join(' ')`. -/
def serializeFavs (names : List String) : List Char :=
  List.intercalate [' '] (names.map quoteName)

/-- The replacement template `:favorites [` ++ list ++ `]`. -/
def favReplacement (arr : List Char) : List Char :=
  favKey ++ ' ' :: '[' :: (arr ++ [']'])

/-- JS replacement-string processing of `String.replace`: dollar escapes
over the match context (whole match, text before, text after, capture 1;
the pattern has exactly one group, so only `$1` is a group reference).
Fuel-based; each step consumes at least one character. -/
def substDollar (whole before after g1 : List Char) : Nat → List Char → List Char
  | 0, l => l
  | _ + 1, [] => []
  | fuel + 1, c :: cs =>
    if c = '$' then
      match cs with
      | [] => [c]
      | d :: cs2 =>
        if d = '$' then d :: substDollar whole before after g1 fuel cs2
        else if d = '&' then whole ++ substDollar whole before after g1 fuel cs2
        else if d = Char.ofNat 96 then before ++ substDollar whole before after g1 fuel cs2
        else if d = Char.ofNat 39 then after ++ substDollar whole before after g1 fuel cs2
        else if d = '1' then g1 ++ substDollar whole before after g1 fuel cs2
        else c :: substDollar whole before after g1 fuel (d :: cs2)
    else c :: substDollar whole before after g1 fuel cs

/-- JS `String.prototype.trim` (ASCII whitespace range). -/
def jsTrimWs (l : List Char) : List Char :=
  ((l.dropWhile isWsChar).reverse.dropWhile isWsChar).reverse

/-- Mirrors the favorites write-back (the commit closure re-reads the
config; with no concurrent edit the re-read text equals `text`): extract
the current favorites, merge with the new names through a `Set`, sort
ascending, serialize as a space-separated double-quoted list, and either
`String.replace` the first pattern match with the new span (with JS
replacement-string processing) or append the key — before a final `}` when
the trimmed text ends with one (dropping the last character of the
untrimmed text), else at the end.  First, the merged favorite list the
write-back serializes: current extracted favorites plus the new names,
deduplicated through a `Set` and sorted ascending. -/
def sortedMergedFavs (text : List Char) (toAdd : List String) : List String :=
  (dedupFirst (extractFavoritesNames text ++ toAdd)).insertionSort (fun a b => a ≤ b)

/-- The write-back itself (see above). -/
def writeFavoritesToConfig (text : List Char) (toAdd : List String) : List Char :=
  let arr := serializeFavs (sortedMergedFavs text toAdd)
  match findFavGo text with
  | some (pre, whole, inner, post) =>
    pre ++ substDollar whole pre post inner (favReplacement arr).length (favReplacement arr) ++ post
  | none =>
    if (jsTrimWs text).getLast? = some (Char.ofNat 125) then
      text.dropLast ++ ' ' :: (favReplacement arr ++ '\n' :: [Char.ofNat 125])
    else text ++ '\n' :: favReplacement arr

/-! ## Theorems -/

/-- helper: containment follows from being a prefix. -/
theorem containsL_of_isPrefixOf {pat l : List Char}
    (h : pat.isPrefixOf l = true) : containsL pat l = true := by
  cases l with
  | nil => simpa [containsL] using h
  | cons c t => simp [containsL, h]

/-- helper: a pattern is contained in any list that embeds it. -/
theorem containsL_append (pat a b : List Char) :
    containsL pat (a ++ pat ++ b) = true := by
  induction a with
  | nil =>
    apply containsL_of_isPrefixOf
    exact List.isPrefixOf_iff_prefix.mpr (by simp)
  | cons c t ih =>
    cases hpre : pat.isPrefixOf (c :: (t ++ pat ++ b)) with
    | true =>
      apply containsL_of_isPrefixOf
      simpa using hpre
    | false =>
      simp only [List.cons_append, containsL, Bool.or_eq_true]
      right
      exact ih

/-- helper: after `jsSet` on a present key, the first entry found for that
key holds the new value. -/
theorem find_jsSet_self {V : Type} (obj : List (String × V)) (k : String)
    (v : V) (h : obj.any (fun p => p.1 = k) = true) :
    (obj.map (fun p => if p.1 = k then (k, v) else p)).find?
      (fun p => p.1 = k) = some (k, v) := by
  induction obj with
  | nil => simp at h
  | cons p t ih =>
    by_cases hp : p.1 = k
    · simp only [List.map_cons, if_pos hp]
      exact List.find?_cons_of_pos _ (by simp)
    · simp only [List.map_cons, if_neg hp]
      rw [List.find?_cons_of_neg _ (by simpa using hp)]
      apply ih
      simp only [List.any_cons, Bool.or_eq_true, decide_eq_true_eq] at h
      rcases h with h | h
      · exact absurd h hp
      · simpa using h

/-- helper: `jsSet`'s overwrite map does not disturb lookups of other keys. -/
theorem find_jsSet_other {V : Type} (obj : List (String × V)) (k k' : String)
    (v : V) (hk : ¬k = k') :
    (obj.map (fun p => if p.1 = k then (k, v) else p)).find?
      (fun p => p.1 = k') = obj.find? (fun p => p.1 = k') := by
  induction obj with
  | nil => rfl
  | cons p t ih =>
    by_cases hp : p.1 = k
    · have hpk' : ¬p.1 = k' := fun hc => hk (hp ▸ hc)
      simp only [List.map_cons, if_pos hp]
      rw [List.find?_cons_of_neg _ (by simpa using hk),
        List.find?_cons_of_neg _ (by simpa using hpk')]
      exact ih
    · simp only [List.map_cons, if_neg hp]
      by_cases hk' : p.1 = k'
      · rw [List.find?_cons_of_pos _ (by simpa using hk'),
          List.find?_cons_of_pos _ (by simpa using hk')]
      · rw [List.find?_cons_of_neg _ (by simpa using hk'),
          List.find?_cons_of_neg _ (by simpa using hk')]
        exact ih

/-- C9: for every vault state — any enumerated folder list, or an exception
from folder enumeration — the pages-folder determination returns the
constant string `"pages"`. -/
theorem getPagesFolder_const (foldersOrErr : Except Unit (List String)) :
    getPagesFolder foldersOrErr = "pages" := by
  cases foldersOrErr with
  | error e => rfl
  | ok folders =>
    simp only [getPagesFolder]
    split
    · rfl
    · split <;> rfl

/-- C1: evaluating the ambiguous-commit step at the spec's scenario — the
page name `"dup"` with selected candidate path `"pages2/dup.md"` — appends a
bookmark item whose `path` field is the page name `"dup"`, not the selected
candidate's file path, because the `Map.forEach` callback binds its `path`
parameter to the map key. -/
theorem ambiguousCommit_pushes_name_not_path :
    executeSyncAmbiguous [] 0 [("dup", "pages2/dup.md")] =
      [{ type := "file", path := some "dup", ctime := some 0 }] ∧
    ("dup" : String) ≠ "pages2/dup.md" := by
  constructor
  · rfl
  · decide

/-- C7: applying a `SettingsUpdate` fix to any config-file state (absent,
unparsable, or parsed object) sets exactly the named key to the fix's value
and leaves the value of every other key as it was in the defaulted object. -/
theorem applySettingsUpdate_spec {V : Type}
    (file : Option (Option (List (String × V)))) (k : String) (v : V) :
    objGet (applySettingsUpdate file k v) k = some v ∧
    ∀ k', k' ≠ k →
      objGet (applySettingsUpdate file k v) k' = objGet (readConfigObj file) k' := by
  constructor
  · show objGet (jsSet (readConfigObj file) k v) k = some v
    generalize readConfigObj file = obj
    unfold jsSet
    split
    · rename_i hany
      unfold objGet
      rw [find_jsSet_self obj k v hany]
      rfl
    · unfold objGet
      rename_i hnone
      have hn : obj.find? (fun p => decide (p.1 = k)) = none := by
        rw [List.find?_eq_none]
        intro p hp
        simp only [decide_eq_true_eq]
        intro hk
        exact hnone (List.any_of_mem hp (by simpa using hk))
      rw [List.find?_append, hn]
      simp
  · intro k' hk'
    have hkk' : ¬k = k' := fun h => hk' h.symm
    show objGet (jsSet (readConfigObj file) k v) k' = _
    generalize readConfigObj file = obj
    unfold jsSet
    split
    · unfold objGet
      rw [find_jsSet_other obj k k' v hkk']
    · unfold objGet
      rw [List.find?_append]
      have h1 : [(k, v)].find? (fun p => decide (p.1 = k')) = none := by
        rw [List.find?_cons_of_neg _ (by simp [hkk'])]
        rfl
      rw [h1]
      simp

/-- C7 witness: concrete instantiation with a two-key object. -/
theorem applySettingsUpdate_spec_witness :
    objGet (applySettingsUpdate (some (some [("folder", "journals"), ("format", "x")]))
        "format" "YYYY-MM-DD") "format" = some "YYYY-MM-DD" ∧
    objGet (applySettingsUpdate (some (some [("folder", "journals"), ("format", "x")]))
        "format" "YYYY-MM-DD") "folder" =
      objGet (readConfigObj (some (some [("folder", "journals"), ("format", "x")]))) "folder" := by
  refine ⟨(applySettingsUpdate_spec _ _ _).1, ?_⟩
  exact (applySettingsUpdate_spec
    (some (some [("folder", "journals"), ("format", "x")])) "format" "YYYY-MM-DD").2
    "folder" (by decide)

/-- C10: the namespace content rewrite leaves content that already contains
the `tags: <hierarchy>` line unchanged, and is idempotent on every content:
applying it twice equals applying it once. -/
theorem namespaceRewrite_idem (content ns : List Char) :
    (∀ a b : List Char,
        content = a ++ tagsLineOf ns ++ b →
        (a = [] ∨ a.getLast? = some '\n') →
        (b = [] ∨ b.head? = some '\n') →
        namespaceRewrite content ns = content) ∧
    namespaceRewrite (namespaceRewrite content ns) ns =
      namespaceRewrite content ns := by
  have hsub : ∀ (c : List Char), containsL (tagsLineOf ns) c = true →
      namespaceRewrite c ns = c := by
    intro c hc
    unfold namespaceRewrite
    simp [hc]
  constructor
  · intro a b hdecomp _ _
    apply hsub
    rw [hdecomp]
    exact containsL_append _ _ _
  · by_cases hc : containsL (tagsLineOf ns) content = true
    · rw [hsub content hc]
      exact hsub content hc
    · have hrw : namespaceRewrite content ns =
          (if ['-', '-', '-'].isPrefixOf content then
            match (findSubGo ['-', '-', '-'] (content.drop 3)).map (fun n => n + 3) with
            | some fmEnd =>
              content.take (fmEnd + 3) ++ '\n' :: tagsLineOf ns ++ '\n' :: content.drop (fmEnd + 3)
            | none => tagsLineOf ns ++ '\n' :: '\n' :: content
          else tagsLineOf ns ++ '\n' :: '\n' :: content) := by
        unfold namespaceRewrite
        simp [hc]
      apply hsub
      rw [hrw]
      split
      · split
        · rename_i fmEnd _
          have : content.take (fmEnd + 3) ++ '\n' :: tagsLineOf ns ++ '\n' :: content.drop (fmEnd + 3) =
              (content.take (fmEnd + 3) ++ ['\n']) ++ tagsLineOf ns ++ ('\n' :: content.drop (fmEnd + 3)) := by
            simp
          rw [this]
          exact containsL_append _ _ _
        · exact containsL_append _ [] _
      · exact containsL_append _ [] _

/-- C10 witness: a concrete content containing the `tags: a/b` line is left
unchanged, and a concrete rewrite is idempotent. -/
theorem namespaceRewrite_idem_witness :
    namespaceRewrite ('t' :: 'a' :: 'g' :: 's' :: ':' :: ' ' :: ['a', '/', 'b'] ++ ['\n', 'x'])
        ['a', '/', 'b'] =
      't' :: 'a' :: 'g' :: 's' :: ':' :: ' ' :: ['a', '/', 'b'] ++ ['\n', 'x'] ∧
    namespaceRewrite (namespaceRewrite ['x', 'y'] ['a', '/', 'b']) ['a', '/', 'b'] =
      namespaceRewrite ['x', 'y'] ['a', '/', 'b'] := by
  constructor
  · exact (namespaceRewrite_idem _ _).1 [] ['\n', 'x'] (by decide) (Or.inl rfl)
      (Or.inr rfl)
  · exact (namespaceRewrite_idem ['x', 'y'] ['a', '/', 'b']).2

/-- helper: one categorize iteration only ever extends `existing`. -/
theorem processPage_existing_mono (fm : String → List VFile) (now : Nat)
    (st : SyncState) (n : String) {x : String} (hx : x ∈ st.existing) :
    x ∈ (processPage fm now st n).existing := by
  unfold processPage
  cases h : fm n with
  | nil => exact hx
  | cons f t =>
    cases t with
    | nil =>
      dsimp only
      split
      · exact hx
      · simpa using Or.inl hx
    | cons g rest =>
      dsimp only
      split
      · exact hx
      · exact hx

/-- helper: the fold only ever extends `existing`. -/
theorem foldl_existing_mono (fm : String → List VFile) (now : Nat)
    (pages : List String) (st : SyncState) {x : String}
    (hx : x ∈ st.existing) :
    x ∈ (pages.foldl (processPage fm now) st).existing := by
  induction pages generalizing st with
  | nil => exact hx
  | cons n t ih => exact ih _ (processPage_existing_mono fm now st n hx)

/-- helper: after an iteration on a uniquely matched name, its path is
present. -/
theorem processPage_unique_mem (fm : String → List VFile) (now : Nat)
    (st : SyncState) (n : String) {f : VFile} (h : fm n = [f]) :
    f.path ∈ (processPage fm now st n).existing := by
  unfold processPage
  rw [h]
  dsimp only
  split
  · assumption
  · simp

/-- helper: after the fold, every uniquely matched page name of the list has
its path in `existing`. -/
theorem foldl_unique_mem (fm : String → List VFile) (now : Nat)
    (pages : List String) (st : SyncState) {n : String} {f : VFile}
    (hn : n ∈ pages) (h : fm n = [f]) :
    f.path ∈ (pages.foldl (processPage fm now) st).existing := by
  induction pages generalizing st with
  | nil => cases hn
  | cons m t ih =>
    rcases List.mem_cons.mp hn with rfl | hmem
    · exact foldl_existing_mono fm now t _ (processPage_unique_mem fm now st n h)
    · exact ih _ hmem

/-- helper: when every uniquely matched name is already present, an
iteration changes neither `items` nor `existing` nor `added`. -/
theorem processPage_saturated (fm : String → List VFile) (now : Nat)
    (st : SyncState) (n : String)
    (h : ∀ f : VFile, fm n = [f] → f.path ∈ st.existing) :
    (processPage fm now st n).added = st.added ∧
    (processPage fm now st n).existing = st.existing ∧
    (processPage fm now st n).items = st.items := by
  unfold processPage
  cases hm : fm n with
  | nil => exact ⟨rfl, rfl, rfl⟩
  | cons f t =>
    cases t with
    | nil =>
      dsimp only
      rw [if_pos (h f hm)]
      exact ⟨rfl, rfl, rfl⟩
    | cons g rest =>
      dsimp only
      split
      · exact ⟨rfl, rfl, rfl⟩
      · exact ⟨rfl, rfl, rfl⟩

/-- helper: fold version of `processPage_saturated`. -/
theorem foldl_saturated (fm : String → List VFile) (now : Nat)
    (pages : List String) (st : SyncState)
    (h : ∀ n ∈ pages, ∀ f : VFile, fm n = [f] → f.path ∈ st.existing) :
    (pages.foldl (processPage fm now) st).added = st.added ∧
    (pages.foldl (processPage fm now) st).existing = st.existing ∧
    (pages.foldl (processPage fm now) st).items = st.items := by
  induction pages generalizing st with
  | nil => exact ⟨rfl, rfl, rfl⟩
  | cons n t ih =>
    have hstep := processPage_saturated fm now st n (h n (List.mem_cons_self n t))
    have htail := ih (processPage fm now st n) (by
      intro m hm f hf
      rw [hstep.2.1]
      exact h m (List.mem_cons_of_mem n hm) f hf)
    refine ⟨?_, ?_, ?_⟩
    · rw [List.foldl_cons, htail.1, hstep.1]
    · rw [List.foldl_cons, htail.2.1, hstep.2.1]
    · rw [List.foldl_cons, htail.2.2, hstep.2.2]

/-- helper: `pathsOf` distributes over append. -/
theorem pathsOf_append (a b : List BookmarkItem) :
    pathsOf (a ++ b) = pathsOf a ++ pathsOf b := by
  unfold pathsOf
  rw [List.map_append, List.filter_append]

/-- helper: the invariant `existing = pathsOf items` survives one
iteration, provided the corpus only hands out nonempty paths. -/
theorem processPage_pathsOf (fm : String → List VFile) (now : Nat)
    (st : SyncState) (n : String)
    (hval : ∀ f ∈ fm n, f.path ≠ "")
    (hinv : st.existing = pathsOf st.items) :
    (processPage fm now st n).existing = pathsOf (processPage fm now st n).items := by
  unfold processPage
  cases hm : fm n with
  | nil => exact hinv
  | cons f t =>
    cases t with
    | nil =>
      dsimp only
      split
      · exact hinv
      · have hne : f.path ≠ "" := hval f (hm ▸ List.mem_singleton_self f)
        rw [pathsOf_append, ← hinv]
        unfold pathsOf
        simp [hne]
    | cons g rest =>
      dsimp only
      split
      · exact hinv
      · exact hinv

/-- helper: fold version of `processPage_pathsOf`. -/
theorem foldl_pathsOf (fm : String → List VFile) (now : Nat)
    (pages : List String) (st : SyncState)
    (hval : ∀ n, ∀ f ∈ fm n, f.path ≠ "")
    (hinv : st.existing = pathsOf st.items) :
    (pages.foldl (processPage fm now) st).existing =
      pathsOf (pages.foldl (processPage fm now) st).items := by
  induction pages generalizing st with
  | nil => exact hinv
  | cons n t ih =>
    exact ih _ (processPage_pathsOf fm now st n (hval n) hinv)

/-- helper: one iteration preserves duplicate-freeness of the item paths,
under the `existing = pathsOf items` invariant. -/
theorem processPage_nodup (fm : String → List VFile) (now : Nat)
    (st : SyncState) (n : String)
    (hval : ∀ f ∈ fm n, f.path ≠ "")
    (hinv : st.existing = pathsOf st.items)
    (hnd : (pathsOf st.items).Nodup) :
    (pathsOf (processPage fm now st n).items).Nodup := by
  unfold processPage
  cases hm : fm n with
  | nil => exact hnd
  | cons f t =>
    cases t with
    | nil =>
      dsimp only
      split
      · exact hnd
      · rename_i hnin
        have hne : f.path ≠ "" := hval f (hm ▸ List.mem_singleton_self f)
        rw [pathsOf_append]
        have hsingle : pathsOf [{ type := "file", path := some f.path, ctime := some now }] =
            [f.path] := by
          unfold pathsOf
          simp [hne]
        rw [hsingle]
        refine List.Nodup.append hnd (List.nodup_singleton _) ?_
        intro x hx hx'
        rw [List.mem_singleton] at hx'
        subst hx'
        exact hnin (hinv ▸ hx)
    | cons g rest =>
      dsimp only
      split
      · exact hnd
      · exact hnd

/-- helper: fold version of `processPage_nodup`. -/
theorem foldl_nodup (fm : String → List VFile) (now : Nat)
    (pages : List String) (st : SyncState)
    (hval : ∀ n, ∀ f ∈ fm n, f.path ≠ "")
    (hinv : st.existing = pathsOf st.items)
    (hnd : (pathsOf st.items).Nodup) :
    (pathsOf (pages.foldl (processPage fm now) st).items).Nodup := by
  induction pages generalizing st with
  | nil => exact hnd
  | cons n t ih =>
    exact ih _ (processPage_pathsOf fm now st n (hval n) hinv)
      (processPage_nodup fm now st n (hval n) hinv hnd)

/-- C3: with an unchanged corpus and config, running the direct-add step a
second time on the bookmark list produced by a first run adds nothing
(`addedCount == 0`), and the step never introduces two bookmark items with
the same path (duplicate-freeness of item paths is preserved).  The
hypothesis states the corpus invariant that file paths are nonempty. -/
theorem directAdd_idempotent (files : List VFile) (pages : List String)
    (items : List BookmarkItem) (now now2 : Nat)
    (hval : ∀ f ∈ files, f.path ≠ "") :
    (runDirectAdd files now2 (runDirectAdd files now items pages).items pages).added = 0 ∧
    ((pathsOf items).Nodup →
      (pathsOf (runDirectAdd files now items pages).items).Nodup) := by
  have hvalm : ∀ n, ∀ f ∈ buildFileMap files n, f.path ≠ "" := by
    intro n f hf
    exact hval f (List.mem_of_mem_filter hf)
  constructor
  · unfold runDirectAdd
    have hsat : ∀ n ∈ pages, ∀ f : VFile, buildFileMap files n = [f] →
        f.path ∈ (initState (runDirectAdd files now items pages).items).existing := by
      intro n hn f hf
      show f.path ∈ pathsOf (runDirectAdd files now items pages).items
      have h1 : f.path ∈ (runDirectAdd files now items pages).existing :=
        foldl_unique_mem (buildFileMap files) now pages (initState items) hn hf
      have h2 : (runDirectAdd files now items pages).existing =
          pathsOf (runDirectAdd files now items pages).items :=
        foldl_pathsOf (buildFileMap files) now pages (initState items) hvalm rfl
      exact h2 ▸ h1
    exact (foldl_saturated (buildFileMap files) now2 pages _ hsat).1
  · intro hnd
    exact foldl_nodup (buildFileMap files) now pages (initState items) hvalm rfl hnd

/-- C3 witness: a two-page corpus with one favorite; the second run adds
nothing and path-uniqueness is preserved. -/
theorem directAdd_idempotent_witness :
    (∀ f ∈ [VFile.mk "pages/x.md" "x"], f.path ≠ "") ∧
    (runDirectAdd [VFile.mk "pages/x.md" "x"] 1
        (runDirectAdd [VFile.mk "pages/x.md" "x"] 0 [] ["x"]).items ["x"]).added = 0 ∧
    ((pathsOf ([] : List BookmarkItem)).Nodup →
      (pathsOf (runDirectAdd [VFile.mk "pages/x.md" "x"] 0 [] ["x"]).items).Nodup) := by
  refine ⟨by decide, ?_⟩
  exact directAdd_idempotent [VFile.mk "pages/x.md" "x"] ["x"] [] 0 1 (by decide)

/-- C5: classification of one queried name against the basename index built
in corpus enumeration order: zero candidates → appended to `missing`;
exactly one candidate not yet bookmarked → a `{type:'file'}` item with that
candidate's path is staged and `addedCount` incremented; `N ≥ 2` candidates
none of which is bookmarked → one ambiguous entry carrying exactly the
candidate list in corpus enumeration order; `N ≥ 2` with some candidate
already bookmarked → the state is unchanged (dropped silently). -/
theorem resolveClassification (files : List VFile) (now : Nat)
    (st : SyncState) (name : String) :
    (buildFileMap files name = [] →
      processPage (buildFileMap files) now st name =
        { st with missing := st.missing ++ [name] }) ∧
    (∀ f : VFile, buildFileMap files name = [f] → f.path ∉ st.existing →
      processPage (buildFileMap files) now st name =
        { st with
          items := st.items ++ [{ type := "file", path := some f.path, ctime := some now }],
          existing := st.existing ++ [f.path],
          added := st.added + 1 }) ∧
    (2 ≤ (buildFileMap files name).length →
      (∀ f ∈ buildFileMap files name, f.path ∉ st.existing) →
      processPage (buildFileMap files) now st name =
        { st with ambiguous := st.ambiguous ++ [(name, buildFileMap files name)] }) ∧
    (2 ≤ (buildFileMap files name).length →
      (∃ f ∈ buildFileMap files name, f.path ∈ st.existing) →
      processPage (buildFileMap files) now st name = st) := by
  refine ⟨?_, ?_, ?_, ?_⟩
  · intro h
    unfold processPage
    rw [h]
  · intro f h hnin
    unfold processPage
    rw [h]
    dsimp only
    rw [if_neg hnin]
  · intro hlen hnone
    unfold processPage
    cases hm : buildFileMap files name with
    | nil => rw [hm] at hlen; simp at hlen
    | cons f t =>
      cases t with
      | nil => rw [hm] at hlen; simp at hlen
      | cons g rest =>
        dsimp only
        rw [if_neg]
        simp only [List.any_eq_true, decide_eq_true_eq, not_exists, not_and]
        intro m hmem
        exact hnone m (hm ▸ hmem)
  · intro hlen hsome
    unfold processPage
    cases hm : buildFileMap files name with
    | nil => rw [hm] at hlen; simp at hlen
    | cons f t =>
      cases t with
      | nil => rw [hm] at hlen; simp at hlen
      | cons g rest =>
        dsimp only
        rw [if_pos]
        simp only [List.any_eq_true, decide_eq_true_eq]
        obtain ⟨m, hmem, hin⟩ := hsome
        exact ⟨m, hm ▸ hmem, hin⟩

/-- C5 witness: the spec's `dup` scenario — two files named `dup`, neither
bookmarked — yields one ambiguous entry carrying both candidates in corpus
order. -/
theorem resolveClassification_witness :
    2 ≤ (buildFileMap [VFile.mk "pages/dup.md" "dup", VFile.mk "pages2/dup.md" "dup"] "dup").length ∧
    (∀ f ∈ buildFileMap [VFile.mk "pages/dup.md" "dup", VFile.mk "pages2/dup.md" "dup"] "dup",
      f.path ∉ (initState []).existing) ∧
    processPage (buildFileMap [VFile.mk "pages/dup.md" "dup", VFile.mk "pages2/dup.md" "dup"]) 0
        (initState []) "dup" =
      { initState [] with
        ambiguous := (initState []).ambiguous ++
          [("dup", buildFileMap [VFile.mk "pages/dup.md" "dup", VFile.mk "pages2/dup.md" "dup"] "dup")] } := by
  refine ⟨by decide, by decide, ?_⟩
  exact (resolveClassification [VFile.mk "pages/dup.md" "dup", VFile.mk "pages2/dup.md" "dup"]
    0 (initState []) "dup").2.2.1 (by decide) (by decide)

/-- helper: `replaceAllGo` ignores the exact fuel once it covers the input
length (nonempty pattern). -/
theorem replaceAllGo_fuel (pat repl : List Char) (hp : pat ≠ []) :
    ∀ (f1 f2 : Nat) (l : List Char), l.length ≤ f1 → l.length ≤ f2 →
      replaceAllGo pat repl f1 l = replaceAllGo pat repl f2 l := by
  intro f1
  induction f1 with
  | zero =>
    intro f2 l h1 _
    have hl : l = [] := List.eq_nil_of_length_eq_zero (Nat.le_zero.mp h1)
    subst hl
    cases f2 <;> rfl
  | succ g ih =>
    intro f2 l h1 h2
    cases l with
    | nil => cases f2 <;> rfl
    | cons c cs =>
      cases f2 with
      | zero => simp at h2
      | succ g2 =>
        simp only [replaceAllGo]
        have hplen : 1 ≤ pat.length := by
          cases pat with
          | nil => exact absurd rfl hp
          | cons a b => simp
        split
        · congr 1
          apply ih
          · simp only [List.length_drop, List.length_cons] at *
            omega
          · simp only [List.length_drop, List.length_cons] at *
            omega
        · congr 1
          apply ih
          · simp only [List.length_cons] at h1
            omega
          · simp only [List.length_cons] at h2
            omega

/-- helper: a pass skips over a block containing no occurrence of the
pattern's first character. -/
theorem replaceAllL_skip (pat repl : List Char) (c0 : Char)
    (hp : pat.head? = some c0) (s l : List Char)
    (hs : ∀ c ∈ s, c ≠ c0) :
    replaceAllL pat repl (s ++ l) = s ++ replaceAllL pat repl l := by
  induction s with
  | nil => rfl
  | cons a t ih =>
    have ha : a ≠ c0 := hs a (List.mem_cons_self a t)
    obtain ⟨ps, rfl⟩ : ∃ ps, pat = c0 :: ps := by
      cases pat with
      | nil => simp at hp
      | cons x xs =>
        simp only [List.head?_cons, Option.some.injEq] at hp
        exact ⟨xs, by rw [hp]⟩
    show replaceAllGo (c0 :: ps) repl (a :: (t ++ l)).length (a :: (t ++ l)) = _
    simp only [List.length_cons, replaceAllGo]
    rw [if_neg]
    · rw [show (t ++ l).length = (t ++ l).length from rfl]
      have := ih (fun c hc => hs c (List.mem_cons_of_mem a hc))
      exact congrArg (a :: ·) this
    · simp only [List.isPrefixOf, Bool.and_eq_true, beq_iff_eq]
      intro hcontr
      exact ha hcontr.1.symm

/-- helper: a pass replaces the pattern at the head and continues after
it. -/
theorem replaceAllL_match (pat repl l : List Char) (hp : pat ≠ []) :
    replaceAllL pat repl (pat ++ l) = repl ++ replaceAllL pat repl l := by
  obtain ⟨c, ps, rfl⟩ : ∃ c ps, pat = c :: ps := by
    cases pat with
    | nil => exact absurd rfl hp
    | cons x xs => exact ⟨x, xs, rfl⟩
  show replaceAllGo (c :: ps) repl (c :: (ps ++ l)).length (c :: (ps ++ l)) = _
  simp only [List.length_cons, replaceAllGo]
  rw [if_pos]
  · congr 1
    have hdrop : (c :: (ps ++ l)).drop (ps.length + 1) = l := by
      have h := List.drop_left (c :: ps) l
      simp only [List.length_cons] at h
      exact h
    rw [hdrop]
    apply replaceAllGo_fuel _ _ hp
    · simp only [List.length_append]
      omega
    · rfl
  · exact List.isPrefixOf_iff_prefix.mpr (by simp)

/-- helper: replacing a pattern by itself is the identity. -/
theorem replaceAllGo_self (pat : List Char) :
    ∀ (fuel : Nat) (l : List Char), replaceAllGo pat pat fuel l = l := by
  intro fuel
  induction fuel with
  | zero => intro l; cases l <;> rfl
  | succ g ih =>
    intro l
    cases l with
    | nil => rfl
    | cons c cs =>
      simp only [replaceAllGo]
      split
      · rename_i hpre
        obtain ⟨t, ht⟩ := List.isPrefixOf_iff_prefix.mp hpre
        rw [show (c :: cs).drop pat.length = t by rw [← ht]; simp]
        rw [ih t, ht]
      · rw [ih cs]

/-- helper: the `yyyy → YYYY` pass on a rendered token sequence. -/
theorem passY (ts : List DTok) (hsep : ∀ c : Char, DTok.sep c ∈ ts → c ≠ 'y') :
    replaceAllL ['y', 'y', 'y', 'y'] ['Y', 'Y', 'Y', 'Y'] ((ts.map DTok.render).flatten) =
      (ts.map DTok.renderB).flatten := by
  induction ts with
  | nil => rfl
  | cons t rest ih =>
    have ihr := ih (fun c hc => hsep c (List.mem_cons_of_mem t hc))
    cases t with
    | y4 =>
      simp only [List.map_cons, List.flatten_cons, DTok.render, DTok.renderB]
      rw [replaceAllL_match _ _ _ (by simp), ihr]
    | m2 =>
      simp only [List.map_cons, List.flatten_cons, DTok.render, DTok.renderB]
      rw [replaceAllL_skip ['y', 'y', 'y', 'y'] ['Y', 'Y', 'Y', 'Y'] 'y' rfl _ _ (by decide), ihr]
    | d2 =>
      simp only [List.map_cons, List.flatten_cons, DTok.render, DTok.renderB]
      rw [replaceAllL_skip ['y', 'y', 'y', 'y'] ['Y', 'Y', 'Y', 'Y'] 'y' rfl _ _ (by decide), ihr]
    | sep c =>
      have hc : c ≠ 'y' := hsep c (List.mem_cons_self _ _)
      simp only [List.map_cons, List.flatten_cons, DTok.render, DTok.renderB]
      rw [replaceAllL_skip ['y', 'y', 'y', 'y'] ['Y', 'Y', 'Y', 'Y'] 'y' rfl _ _ (by
        intro x hx
        rw [List.mem_singleton.mp hx]
        exact hc), ihr]

/-- helper: the `dd → DD` pass on the intermediate rendering. -/
theorem passD (ts : List DTok) (hsep : ∀ c : Char, DTok.sep c ∈ ts → c ≠ 'd') :
    replaceAllL ['d', 'd'] ['D', 'D'] ((ts.map DTok.renderB).flatten) =
      (ts.map DTok.renderC).flatten := by
  induction ts with
  | nil => rfl
  | cons t rest ih =>
    have ihr := ih (fun c hc => hsep c (List.mem_cons_of_mem t hc))
    cases t with
    | y4 =>
      simp only [List.map_cons, List.flatten_cons, DTok.renderB, DTok.renderC]
      rw [replaceAllL_skip ['d', 'd'] ['D', 'D'] 'd' rfl _ _ (by decide), ihr]
    | m2 =>
      simp only [List.map_cons, List.flatten_cons, DTok.renderB, DTok.renderC]
      rw [replaceAllL_skip ['d', 'd'] ['D', 'D'] 'd' rfl _ _ (by decide), ihr]
    | d2 =>
      simp only [List.map_cons, List.flatten_cons, DTok.renderB, DTok.renderC]
      rw [replaceAllL_match _ _ _ (by simp), ihr]
    | sep c =>
      have hc : c ≠ 'd' := hsep c (List.mem_cons_self _ _)
      simp only [List.map_cons, List.flatten_cons, DTok.renderB, DTok.renderC]
      rw [replaceAllL_skip ['d', 'd'] ['D', 'D'] 'd' rfl _ _ (by
        intro x hx
        rw [List.mem_singleton.mp hx]
        exact hc), ihr]

/-- helper: the `_ → -` pass on the intermediate rendering. -/
theorem passU (ts : List DTok) :
    replaceAllL ['_'] ['-'] ((ts.map DTok.renderC).flatten) =
      (ts.map DTok.mapped).flatten := by
  induction ts with
  | nil => rfl
  | cons t rest ih =>
    cases t with
    | y4 =>
      simp only [List.map_cons, List.flatten_cons, DTok.renderC, DTok.mapped]
      rw [replaceAllL_skip ['_'] ['-'] '_' rfl _ _ (by decide), ih]
    | m2 =>
      simp only [List.map_cons, List.flatten_cons, DTok.renderC, DTok.mapped]
      rw [replaceAllL_skip ['_'] ['-'] '_' rfl _ _ (by decide), ih]
    | d2 =>
      simp only [List.map_cons, List.flatten_cons, DTok.renderC, DTok.mapped]
      rw [replaceAllL_skip ['_'] ['-'] '_' rfl _ _ (by decide), ih]
    | sep c =>
      by_cases hc : c = '_'
      · subst hc
        simp only [List.map_cons, List.flatten_cons, DTok.renderC, DTok.mapped]
        rw [replaceAllL_match ['_'] ['-'] _ (by simp), ih]
        simp
      · simp only [List.map_cons, List.flatten_cons, DTok.renderC, DTok.mapped, if_neg hc]
        rw [replaceAllL_skip ['_'] ['-'] '_' rfl _ _ (by
          intro x hx
          rw [List.mem_singleton.mp hx]
          exact hc), ih]

/-- C6 counterexample: on the Logseq format `yyyy_MM_dd` the code derives
`YYYY-MM-DD` — the day token is uppercased — while the claim's token map
(day and month tokens pass through unchanged) predicts `YYYY-MM-dd`. -/
theorem dateFormat_day_token_counterexample :
    deriveObsDailyFormat "yyyy_MM_dd" = "YYYY-MM-DD" ∧
    specDeriveObsDailyFormat "yyyy_MM_dd" = "YYYY-MM-dd" ∧
    deriveObsDailyFormat "yyyy_MM_dd" ≠ specDeriveObsDailyFormat "yyyy_MM_dd" := by
  refine ⟨by decide, by decide, by decide⟩

/-- C6 (amended): on every token sequence of 4-y year tokens, month tokens,
day tokens and separator characters (separators other than the token
letters `y`, `d`), the derived Obsidian format is the per-token image under
the map 4-y → 4-Y, month token unchanged, day token `dd` → `DD`, and
underscore → hyphen. -/
theorem deriveObsDailyFormat_tokens (ts : List DTok)
    (hsep : ∀ c : Char, DTok.sep c ∈ ts → c ≠ 'y' ∧ c ≠ 'd') :
    deriveObsDailyFormat (String.mk (renderToks ts)) = String.mk (mappedToks ts) := by
  unfold deriveObsDailyFormat renderToks mappedToks
  show String.mk (replaceAllL ['_'] ['-']
    (replaceAllL ['d', 'd'] ['D', 'D']
      (replaceAllL ['M', 'M'] ['M', 'M']
        (replaceAllL ['y', 'y', 'y', 'y'] ['Y', 'Y', 'Y', 'Y']
          ((ts.map DTok.render).flatten))))) = _
  rw [passY ts (fun c hc => (hsep c hc).1)]
  rw [show replaceAllL ['M', 'M'] ['M', 'M'] ((ts.map DTok.renderB).flatten) =
      (ts.map DTok.renderB).flatten from replaceAllGo_self _ _ _]
  rw [passD ts (fun c hc => (hsep c hc).2)]
  rw [passU ts]

/-- C6 witness: the token sequence `yyyy _ MM _ dd`. -/
theorem deriveObsDailyFormat_tokens_witness :
    (∀ c : Char,
      DTok.sep c ∈ [DTok.y4, DTok.sep '_', DTok.m2, DTok.sep '_', DTok.d2] →
        c ≠ 'y' ∧ c ≠ 'd') ∧
    deriveObsDailyFormat
        (String.mk (renderToks [DTok.y4, DTok.sep '_', DTok.m2, DTok.sep '_', DTok.d2])) =
      String.mk (mappedToks [DTok.y4, DTok.sep '_', DTok.m2, DTok.sep '_', DTok.d2]) := by
  have hsep : ∀ c : Char,
      DTok.sep c ∈ [DTok.y4, DTok.sep '_', DTok.m2, DTok.sep '_', DTok.d2] →
        c ≠ 'y' ∧ c ≠ 'd' := by
    intro c hc
    simp only [List.mem_cons, List.mem_singleton, List.not_mem_nil, or_false] at hc
    rcases hc with h | h | h | h | h
    · exact absurd h (by simp)
    · rw [DTok.sep.injEq] at h
      subst h
      decide
    · exact absurd h (by simp)
    · rw [DTok.sep.injEq] at h
      subst h
      decide
    · exact absurd h (by simp)
  exact ⟨hsep, deriveObsDailyFormat_tokens _ hsep⟩

/-- helper: takeWhile of a list whose head fails the predicate. -/
theorem takeWhile_head_false {p : Char → Bool} (l : List Char)
    (h : ∀ c, l.head? = some c → p c = false) : l.takeWhile p = [] := by
  cases l with
  | nil => rfl
  | cons a t => simp [List.takeWhile_cons, h a rfl]

/-- helper: dropWhile of a list whose head fails the predicate. -/
theorem dropWhile_head_false {p : Char → Bool} (l : List Char)
    (h : ∀ c, l.head? = some c → p c = false) : l.dropWhile p = l := by
  cases l with
  | nil => rfl
  | cons a t => simp [List.dropWhile_cons, h a rfl]

/-- helper: a pattern of self-uppercase characters CI-matches itself. -/
theorem isPrefixCI_append (p l : List Char)
    (h : ∀ c ∈ p, (c.toUpper == c) = true) : isPrefixCI p (p ++ l) = true := by
  induction p with
  | nil => rfl
  | cons a t ih =>
    simp only [List.cons_append, isPrefixCI, Bool.and_eq_true]
    exact ⟨h a (List.mem_cons_self a t),
      ih (fun c hc => h c (List.mem_cons_of_mem a hc))⟩

/-- helper: a CI prefix test fails whenever some aligned position
mismatches. -/
theorem isPrefixCI_false_at (p1 : List Char) (x : Char) (p2 : List Char) :
    ∀ (l1 : List Char) (y : Char) (r : List Char), l1.length = p1.length →
      (y.toUpper == x) = false →
      isPrefixCI (p1 ++ x :: p2) (l1 ++ y :: r) = false := by
  induction p1 with
  | nil =>
    intro l1 y r hlen hxy
    have hl1 : l1 = [] := List.eq_nil_of_length_eq_zero hlen
    subst hl1
    simp [isPrefixCI, hxy]
  | cons a t ih =>
    intro l1 y r hlen hxy
    cases l1 with
    | nil => simp at hlen
    | cons b u =>
      show ((b.toUpper == a) && isPrefixCI (t ++ x :: p2) (u ++ y :: r)) = false
      rw [ih u y r (by simpa using hlen) hxy, Bool.and_false]

/-- helper: one alternation step, matching case. -/
theorem matchAlt_cons_pos (a : List Char) (alts : List (List Char))
    (l : List Char) (h : isPrefixCI a l = true) :
    matchAlt (a :: alts) l = some (l.take a.length, l.drop a.length) := by
  simp [matchAlt, h]

/-- helper: one alternation step, failing case. -/
theorem matchAlt_cons_neg (a : List Char) (alts : List (List Char))
    (l : List Char) (h : isPrefixCI a l = false) :
    matchAlt (a :: alts) l = matchAlt alts l := by
  simp [matchAlt, h]

/-- helper: the done alternation fails on every open marker. -/
theorem matchAlt_done_of_todo (mk : List Char) (hmk : mk ∈ todoAlts)
    (r : List Char) : matchAlt doneAlts (mk ++ r) = none := by
  simp only [todoAlts, List.mem_cons, List.not_mem_nil, or_false] at hmk
  rcases hmk with rfl | rfl | rfl | rfl
  · have h : isPrefixCI ['D', 'O', 'N', 'E'] (['T', 'O', 'D', 'O'] ++ r) = false :=
      isPrefixCI_false_at [] 'D' ['O', 'N', 'E'] [] 'T' (['O', 'D', 'O'] ++ r) rfl (by decide)
    show matchAlt (['D', 'O', 'N', 'E'] :: []) (['T', 'O', 'D', 'O'] ++ r) = none
    rw [matchAlt_cons_neg _ _ _ h]
    rfl
  · have h : isPrefixCI ['D', 'O', 'N', 'E'] (['D', 'O', 'I', 'N', 'G'] ++ r) = false :=
      isPrefixCI_false_at ['D', 'O'] 'N' ['E'] ['D', 'O'] 'I' (['N', 'G'] ++ r) rfl (by decide)
    show matchAlt (['D', 'O', 'N', 'E'] :: []) (['D', 'O', 'I', 'N', 'G'] ++ r) = none
    rw [matchAlt_cons_neg _ _ _ h]
    rfl
  · have h : isPrefixCI ['D', 'O', 'N', 'E'] (['N', 'O', 'W'] ++ r) = false :=
      isPrefixCI_false_at [] 'D' ['O', 'N', 'E'] [] 'N' (['O', 'W'] ++ r) rfl (by decide)
    show matchAlt (['D', 'O', 'N', 'E'] :: []) (['N', 'O', 'W'] ++ r) = none
    rw [matchAlt_cons_neg _ _ _ h]
    rfl
  · have h : isPrefixCI ['D', 'O', 'N', 'E'] (['L', 'A', 'T', 'E', 'R'] ++ r) = false :=
      isPrefixCI_false_at [] 'D' ['O', 'N', 'E'] [] 'L' (['A', 'T', 'E', 'R'] ++ r) rfl (by decide)
    show matchAlt (['D', 'O', 'N', 'E'] :: []) (['L', 'A', 'T', 'E', 'R'] ++ r) = none
    rw [matchAlt_cons_neg _ _ _ h]
    rfl

/-- helper: the open alternation matches each of its markers, consuming
exactly the marker (the alternation is prefix-free). -/
theorem matchAlt_todo_self (mk : List Char) (hmk : mk ∈ todoAlts)
    (r : List Char) : matchAlt todoAlts (mk ++ r) = some (mk, r) := by
  simp only [todoAlts, List.mem_cons, List.not_mem_nil, or_false] at hmk
  rcases hmk with rfl | rfl | rfl | rfl
  · have h : isPrefixCI ['T', 'O', 'D', 'O'] (['T', 'O', 'D', 'O'] ++ r) = true :=
      isPrefixCI_append _ _ (by decide)
    show matchAlt (['T', 'O', 'D', 'O'] :: ['D', 'O', 'I', 'N', 'G'] :: ['N', 'O', 'W'] ::
      ['L', 'A', 'T', 'E', 'R'] :: []) (['T', 'O', 'D', 'O'] ++ r) = _
    rw [matchAlt_cons_pos _ _ _ h, List.take_left' rfl, List.drop_left' rfl]
  · have h1 : isPrefixCI ['T', 'O', 'D', 'O'] (['D', 'O', 'I', 'N', 'G'] ++ r) = false :=
      isPrefixCI_false_at [] 'T' ['O', 'D', 'O'] [] 'D' (['O', 'I', 'N', 'G'] ++ r) rfl (by decide)
    have h2 : isPrefixCI ['D', 'O', 'I', 'N', 'G'] (['D', 'O', 'I', 'N', 'G'] ++ r) = true :=
      isPrefixCI_append _ _ (by decide)
    show matchAlt (['T', 'O', 'D', 'O'] :: ['D', 'O', 'I', 'N', 'G'] :: ['N', 'O', 'W'] ::
      ['L', 'A', 'T', 'E', 'R'] :: []) (['D', 'O', 'I', 'N', 'G'] ++ r) = _
    rw [matchAlt_cons_neg _ _ _ h1, matchAlt_cons_pos _ _ _ h2,
      List.take_left' rfl, List.drop_left' rfl]
  · have h1 : isPrefixCI ['T', 'O', 'D', 'O'] (['N', 'O', 'W'] ++ r) = false :=
      isPrefixCI_false_at [] 'T' ['O', 'D', 'O'] [] 'N' (['O', 'W'] ++ r) rfl (by decide)
    have h2 : isPrefixCI ['D', 'O', 'I', 'N', 'G'] (['N', 'O', 'W'] ++ r) = false :=
      isPrefixCI_false_at [] 'D' ['O', 'I', 'N', 'G'] [] 'N' (['O', 'W'] ++ r) rfl (by decide)
    have h3 : isPrefixCI ['N', 'O', 'W'] (['N', 'O', 'W'] ++ r) = true :=
      isPrefixCI_append _ _ (by decide)
    show matchAlt (['T', 'O', 'D', 'O'] :: ['D', 'O', 'I', 'N', 'G'] :: ['N', 'O', 'W'] ::
      ['L', 'A', 'T', 'E', 'R'] :: []) (['N', 'O', 'W'] ++ r) = _
    rw [matchAlt_cons_neg _ _ _ h1, matchAlt_cons_neg _ _ _ h2,
      matchAlt_cons_pos _ _ _ h3, List.take_left' rfl, List.drop_left' rfl]
  · have h1 : isPrefixCI ['T', 'O', 'D', 'O'] (['L', 'A', 'T', 'E', 'R'] ++ r) = false :=
      isPrefixCI_false_at [] 'T' ['O', 'D', 'O'] [] 'L' (['A', 'T', 'E', 'R'] ++ r) rfl (by decide)
    have h2 : isPrefixCI ['D', 'O', 'I', 'N', 'G'] (['L', 'A', 'T', 'E', 'R'] ++ r) = false :=
      isPrefixCI_false_at [] 'D' ['O', 'I', 'N', 'G'] [] 'L' (['A', 'T', 'E', 'R'] ++ r) rfl (by decide)
    have h3 : isPrefixCI ['N', 'O', 'W'] (['L', 'A', 'T', 'E', 'R'] ++ r) = false :=
      isPrefixCI_false_at [] 'N' ['O', 'W'] [] 'L' (['A', 'T', 'E', 'R'] ++ r) rfl (by decide)
    have h4 : isPrefixCI ['L', 'A', 'T', 'E', 'R'] (['L', 'A', 'T', 'E', 'R'] ++ r) = true :=
      isPrefixCI_append _ _ (by decide)
    show matchAlt (['T', 'O', 'D', 'O'] :: ['D', 'O', 'I', 'N', 'G'] :: ['N', 'O', 'W'] ::
      ['L', 'A', 'T', 'E', 'R'] :: []) (['L', 'A', 'T', 'E', 'R'] ++ r) = _
    rw [matchAlt_cons_neg _ _ _ h1, matchAlt_cons_neg _ _ _ h2,
      matchAlt_cons_neg _ _ _ h3, matchAlt_cons_pos _ _ _ h4,
      List.take_left' rfl, List.drop_left' rfl]

/-- helper: the done alternation consumes exactly `DONE`. -/
theorem matchAlt_done_self (r : List Char) :
    matchAlt doneAlts (['D', 'O', 'N', 'E'] ++ r) = some (['D', 'O', 'N', 'E'], r) := by
  have h : isPrefixCI ['D', 'O', 'N', 'E'] (['D', 'O', 'N', 'E'] ++ r) = true :=
    isPrefixCI_append _ _ (by decide)
  show matchAlt (['D', 'O', 'N', 'E'] :: []) (['D', 'O', 'N', 'E'] ++ r) = _
  rw [matchAlt_cons_pos _ _ _ h, List.take_left' rfl, List.drop_left' rfl]

/-- helper: the open alternation fails on a head character that matches no
alternative's first letter. -/
theorem matchAlt_todo_head_false (c : Char)
    (hT : (c.toUpper == 'T') = false) (hD : (c.toUpper == 'D') = false)
    (hN : (c.toUpper == 'N') = false) (hL : (c.toUpper == 'L') = false)
    (r : List Char) : matchAlt todoAlts (c :: r) = none := by
  have h1 : isPrefixCI ['T', 'O', 'D', 'O'] (c :: r) = false :=
    isPrefixCI_false_at [] 'T' ['O', 'D', 'O'] [] c r rfl hT
  have h2 : isPrefixCI ['D', 'O', 'I', 'N', 'G'] (c :: r) = false :=
    isPrefixCI_false_at [] 'D' ['O', 'I', 'N', 'G'] [] c r rfl hD
  have h3 : isPrefixCI ['N', 'O', 'W'] (c :: r) = false :=
    isPrefixCI_false_at [] 'N' ['O', 'W'] [] c r rfl hN
  have h4 : isPrefixCI ['L', 'A', 'T', 'E', 'R'] (c :: r) = false :=
    isPrefixCI_false_at [] 'L' ['A', 'T', 'E', 'R'] [] c r rfl hL
  show matchAlt (['T', 'O', 'D', 'O'] :: ['D', 'O', 'I', 'N', 'G'] :: ['N', 'O', 'W'] ::
    ['L', 'A', 'T', 'E', 'R'] :: []) (c :: r) = none
  rw [matchAlt_cons_neg _ _ _ h1, matchAlt_cons_neg _ _ _ h2,
    matchAlt_cons_neg _ _ _ h3, matchAlt_cons_neg _ _ _ h4]
  rfl

/-- helper: the capture prefix where the line head is a plain character
(not whitespace, not a dash). -/
theorem matchDashPrefix_plain (c : Char) (t : List Char)
    (hws : isWsChar c = false) (hd : ¬c = '-') :
    matchDashPrefix (c :: t) = ([], c :: t) := by
  simp only [matchDashPrefix, List.takeWhile_cons, List.dropWhile_cons, hws,
    Bool.false_eq_true, if_false, if_neg hd]

/-- helper: the capture prefix on a `"- "` list-dash line. -/
theorem matchDashPrefix_dash (c : Char) (t : List Char)
    (hws : isWsChar c = false) :
    matchDashPrefix ('-' :: ' ' :: c :: t) = (['-', ' '], c :: t) := by
  have hdash : isWsChar '-' = false := by decide
  have hsp : isWsChar ' ' = true := by decide
  simp only [matchDashPrefix, List.takeWhile_cons, List.dropWhile_cons, hdash,
    hsp, hws, Bool.false_eq_true, if_false, if_true, if_pos rfl,
    List.nil_append]

/-- helper: a span ending in a non-terminator does not enable `^`. -/
theorem lastIsNewline_concat (x : List Char) (c : Char)
    (h : isNewlineChar c = false) : lastIsNewline (x ++ [c]) = false := by
  simp [lastIsNewline, List.getLast?_concat, h]

/-- helper: off a `^` position, a pass copies terminator-free input
verbatim (any fuel). -/
theorem replaceMarkersGo_false (alts : List (List Char)) (repl : List Char) :
    ∀ (fuel : Nat) (l : List Char), (∀ c ∈ l, isNewlineChar c = false) →
      replaceMarkersGo alts repl fuel false l = l := by
  intro fuel
  induction fuel with
  | zero => intro l _; cases l <;> rfl
  | succ f ih =>
    intro l hl
    cases l with
    | nil => rfl
    | cons c cs =>
      simp only [replaceMarkersGo, if_neg (by simp : ¬(false = true))]
      rw [hl c (List.mem_cons_self c cs)]
      exact congrArg (c :: ·) (ih cs (fun x hx => hl x (List.mem_cons_of_mem c hx)))

/-- helper: at a `^` position with no pattern match, a pass copies
terminator-free input verbatim. -/
theorem replaceMarkersGo_true_nomatch (alts : List (List Char))
    (repl : List Char) (l : List Char)
    (hm : matchMarkerAt alts l = none)
    (hl : ∀ c ∈ l, isNewlineChar c = false) :
    ∀ fuel, replaceMarkersGo alts repl fuel true l = l := by
  intro fuel
  cases fuel with
  | zero => cases l <;> rfl
  | succ f =>
    cases l with
    | nil => rfl
    | cons c cs =>
      simp only [replaceMarkersGo, if_pos rfl, hm]
      rw [hl c (List.mem_cons_self c cs)]
      exact congrArg (c :: ·)
        (replaceMarkersGo_false alts repl f cs
          (fun x hx => hl x (List.mem_cons_of_mem c hx)))

/-- helper: at a `^` position with a match whose span does not end in a
terminator and whose continuation is terminator-free, a pass emits the
capture, the replacement, and the continuation. -/
theorem replaceMarkersGo_true_match (alts : List (List Char))
    (repl : List Char) (c : Char) (cs g1 w r : List Char)
    (hm : matchMarkerAt alts (c :: cs) = some (g1, w, r))
    (hw : lastIsNewline w = false)
    (hr : ∀ x ∈ r, isNewlineChar x = false) (f : Nat) :
    replaceMarkersGo alts repl (f + 1) true (c :: cs) = g1 ++ repl ++ r := by
  simp only [replaceMarkersGo, hm, hw]
  rw [replaceMarkersGo_false alts repl f r hr]
  simp

/-- helper: full-pass version of `replaceMarkersGo_true_match` (the fuel is
the input length, which is a successor on nonempty input). -/
theorem replaceMarkersL_match (alts : List (List Char)) (repl : List Char)
    (c : Char) (cs g1 w r : List Char)
    (hm : matchMarkerAt alts (c :: cs) = some (g1, w, r))
    (hw : lastIsNewline w = false)
    (hr : ∀ x ∈ r, isNewlineChar x = false) :
    replaceMarkersL alts repl (c :: cs) = g1 ++ repl ++ r := by
  show replaceMarkersGo alts repl (c :: cs).length true (c :: cs) = _
  rw [List.length_cons]
  exact replaceMarkersGo_true_match alts repl c cs g1 w r hm hw hr cs.length

/-- helper: full-pass version of `replaceMarkersGo_true_nomatch`. -/
theorem replaceMarkersL_nomatch (alts : List (List Char)) (repl : List Char)
    (l : List Char) (hm : matchMarkerAt alts l = none)
    (hl : ∀ c ∈ l, isNewlineChar c = false) :
    replaceMarkersL alts repl l = l :=
  replaceMarkersGo_true_nomatch alts repl l hm hl l.length

/-- helper: no pattern match on a plain-headed line whose alternation
fails. -/
theorem matchMarkerAt_plain_none (alts : List (List Char)) (c0 : Char)
    (t : List Char) (hws : isWsChar c0 = false) (hd : ¬c0 = '-')
    (hA : matchAlt alts (c0 :: t) = none) :
    matchMarkerAt alts (c0 :: t) = none := by
  simp only [matchMarkerAt, matchDashPrefix_plain c0 t hws hd, hA]

/-- helper: no pattern match on a `"- "`-dashed line whose alternation
fails after the dash prefix. -/
theorem matchMarkerAt_dash_none (alts : List (List Char)) (c0 : Char)
    (t : List Char) (hws : isWsChar c0 = false)
    (hA : matchAlt alts (c0 :: t) = none) :
    matchMarkerAt alts ('-' :: ' ' :: c0 :: t) = none := by
  simp only [matchMarkerAt, matchDashPrefix_dash c0 t hws, hA]

/-- helper: the single-space span before a non-whitespace continuation. -/
theorem takeWhile_space (rest : List Char)
    (hhd : ∀ c, rest.head? = some c → isWsChar c = false) :
    (' ' :: rest).takeWhile isWsChar = [' '] ∧
    (' ' :: rest).dropWhile isWsChar = rest := by
  constructor
  · rw [List.takeWhile_cons]
    simp only [show isWsChar ' ' = true from by decide, if_true]
    rw [takeWhile_head_false rest hhd]
  · rw [List.dropWhile_cons]
    simp only [show isWsChar ' ' = true from by decide, if_true]
    exact dropWhile_head_false rest hhd

/-- helper: full pattern match on a plain marker line: empty capture, span
up to and including the separator space, continuation `rest`. -/
theorem matchMarkerAt_plain_some (alts : List (List Char)) (c0 : Char)
    (mkt rest : List Char) (hws : isWsChar c0 = false) (hd : ¬c0 = '-')
    (hhd : ∀ c, rest.head? = some c → isWsChar c = false)
    (hB : matchAlt alts (c0 :: (mkt ++ ' ' :: rest)) = some (c0 :: mkt, ' ' :: rest)) :
    matchMarkerAt alts (c0 :: (mkt ++ ' ' :: rest)) =
      some ([], (c0 :: mkt) ++ [' '], rest) := by
  obtain ⟨h1, h2⟩ := takeWhile_space rest hhd
  simp only [matchMarkerAt, matchDashPrefix_plain c0 _ hws hd, hB, h1, h2,
    show isWordChar ' ' = false from by decide, Bool.false_eq_true, if_false,
    List.nil_append]

/-- helper: full pattern match on a dashed marker line: `"- "` capture,
span up to and including the separator space, continuation `rest`. -/
theorem matchMarkerAt_dash_some (alts : List (List Char)) (c0 : Char)
    (mkt rest : List Char) (hws : isWsChar c0 = false)
    (hhd : ∀ c, rest.head? = some c → isWsChar c = false)
    (hB : matchAlt alts (c0 :: (mkt ++ ' ' :: rest)) = some (c0 :: mkt, ' ' :: rest)) :
    matchMarkerAt alts ('-' :: ' ' :: c0 :: (mkt ++ ' ' :: rest)) =
      some (['-', ' '], ['-', ' '] ++ (c0 :: mkt) ++ [' '], rest) := by
  obtain ⟨h1, h2⟩ := takeWhile_space rest hhd
  simp only [matchMarkerAt, matchDashPrefix_dash c0 _ hws, hB, h1, h2,
    show isWordChar ' ' = false from by decide, Bool.false_eq_true, if_false]

/-- helper: an open-marker line is untouched by the done pass and rewritten
by the open pass: the capture (empty or the list dash) is kept, the marker
and separator become the unchecked prefix, the rest is preserved. -/
theorem taskFix_open_core (c0 : Char) (mkt : List Char) (d : Bool)
    (rest : List Char)
    (hnl : ∀ c ∈ rest, isNewlineChar c = false)
    (hhd : ∀ c, rest.head? = some c → isWsChar c = false)
    (hws : isWsChar c0 = false) (hd0 : ¬c0 = '-')
    (hmknl : ∀ c ∈ c0 :: mkt, isNewlineChar c = false)
    (hA : ∀ r, matchAlt doneAlts ((c0 :: mkt) ++ r) = none)
    (hB : ∀ r, matchAlt todoAlts ((c0 :: mkt) ++ r) = some (c0 :: mkt, r)) :
    replaceMarkersL todoAlts uncheckedRepl
      (replaceMarkersL doneAlts checkedRepl (linePre d ++ (c0 :: mkt) ++ ' ' :: rest)) =
    linePre d ++ uncheckedRepl ++ rest := by
  have hlineNl : ∀ c ∈ c0 :: (mkt ++ ' ' :: rest), isNewlineChar c = false := by
    intro c hc
    rcases List.mem_cons.mp hc with rfl | hc2
    · exact hmknl c (List.mem_cons_self _ _)
    · rcases List.mem_append.mp hc2 with h | h
      · exact hmknl c (List.mem_cons_of_mem _ h)
      · rcases List.mem_cons.mp h with rfl | h2
        · decide
        · exact hnl c h2
  have hA1 : matchAlt doneAlts (c0 :: (mkt ++ ' ' :: rest)) = none := hA (' ' :: rest)
  have hB1 : matchAlt todoAlts (c0 :: (mkt ++ ' ' :: rest)) = some (c0 :: mkt, ' ' :: rest) :=
    hB (' ' :: rest)
  cases d with
  | false =>
    show replaceMarkersL todoAlts uncheckedRepl
      (replaceMarkersL doneAlts checkedRepl (c0 :: (mkt ++ ' ' :: rest))) =
      [] ++ uncheckedRepl ++ rest
    rw [replaceMarkersL_nomatch doneAlts checkedRepl _
      (matchMarkerAt_plain_none doneAlts c0 _ hws hd0 hA1) hlineNl]
    rw [replaceMarkersL_match todoAlts uncheckedRepl c0 _ [] ((c0 :: mkt) ++ [' ']) rest
      (matchMarkerAt_plain_some todoAlts c0 mkt rest hws hd0 hhd hB1)
      (lastIsNewline_concat _ _ (by decide)) hnl]
  | true =>
    have hlineNl2 : ∀ c ∈ '-' :: ' ' :: c0 :: (mkt ++ ' ' :: rest),
        isNewlineChar c = false := by
      intro c hc
      rcases List.mem_cons.mp hc with rfl | hc2
      · decide
      · rcases List.mem_cons.mp hc2 with rfl | hc3
        · decide
        · exact hlineNl c hc3
    show replaceMarkersL todoAlts uncheckedRepl
      (replaceMarkersL doneAlts checkedRepl ('-' :: ' ' :: c0 :: (mkt ++ ' ' :: rest))) =
      ['-', ' '] ++ uncheckedRepl ++ rest
    rw [replaceMarkersL_nomatch doneAlts checkedRepl _
      (matchMarkerAt_dash_none doneAlts c0 _ hws hA1) hlineNl2]
    rw [replaceMarkersL_match todoAlts uncheckedRepl '-' _ ['-', ' ']
      (['-', ' '] ++ (c0 :: mkt) ++ [' ']) rest
      (matchMarkerAt_dash_some todoAlts c0 mkt rest hws hhd hB1)
      (by
        have h := lastIsNewline_concat (['-', ' '] ++ (c0 :: mkt)) ' ' (by decide)
        rw [List.append_assoc] at h
        exact h) hnl]

/-- helper: a done-marker line is rewritten by the done pass to the checked
prefix and then untouched by the open pass. -/
theorem taskFix_done_core (d : Bool) (rest : List Char)
    (hnl : ∀ c ∈ rest, isNewlineChar c = false)
    (hhd : ∀ c, rest.head? = some c → isWsChar c = false) :
    replaceMarkersL todoAlts uncheckedRepl
      (replaceMarkersL doneAlts checkedRepl
        (linePre d ++ ['D', 'O', 'N', 'E'] ++ ' ' :: rest)) =
    linePre d ++ checkedRepl ++ rest := by
  have hDone : matchAlt doneAlts ('D' :: (['O', 'N', 'E'] ++ ' ' :: rest)) =
      some ('D' :: ['O', 'N', 'E'], ' ' :: rest) := matchAlt_done_self (' ' :: rest)
  have hOut1 : ∀ c ∈ '[' :: 'x' :: ']' :: ' ' :: rest, isNewlineChar c = false := by
    intro c hc
    rcases List.mem_cons.mp hc with rfl | hc2
    · decide
    · rcases List.mem_cons.mp hc2 with rfl | hc3
      · decide
      · rcases List.mem_cons.mp hc3 with rfl | hc4
        · decide
        · rcases List.mem_cons.mp hc4 with rfl | hc5
          · decide
          · exact hnl c hc5
  cases d with
  | false =>
    show replaceMarkersL todoAlts uncheckedRepl
      (replaceMarkersL doneAlts checkedRepl ('D' :: (['O', 'N', 'E'] ++ ' ' :: rest))) =
      [] ++ checkedRepl ++ rest
    rw [replaceMarkersL_match doneAlts checkedRepl 'D' _ []
      (('D' :: ['O', 'N', 'E']) ++ [' ']) rest
      (matchMarkerAt_plain_some doneAlts 'D' ['O', 'N', 'E'] rest (by decide) (by decide)
        hhd hDone)
      (lastIsNewline_concat _ _ (by decide)) hnl]
    show replaceMarkersL todoAlts uncheckedRepl
      ('-' :: ' ' :: '[' :: 'x' :: ']' :: ' ' :: rest) = [] ++ checkedRepl ++ rest
    rw [replaceMarkersL_nomatch todoAlts uncheckedRepl _
      (matchMarkerAt_dash_none todoAlts '[' _ (by decide)
        (matchAlt_todo_head_false '[' (by decide) (by decide) (by decide) (by decide) _))
      (by
        intro c hc
        rcases List.mem_cons.mp hc with rfl | hc2
        · decide
        · rcases List.mem_cons.mp hc2 with rfl | hc3
          · decide
          · exact hOut1 c hc3)]
    rfl
  | true =>
    show replaceMarkersL todoAlts uncheckedRepl
      (replaceMarkersL doneAlts checkedRepl
        ('-' :: ' ' :: 'D' :: (['O', 'N', 'E'] ++ ' ' :: rest))) =
      ['-', ' '] ++ checkedRepl ++ rest
    rw [replaceMarkersL_match doneAlts checkedRepl '-' _ ['-', ' ']
      (['-', ' '] ++ ('D' :: ['O', 'N', 'E']) ++ [' ']) rest
      (matchMarkerAt_dash_some doneAlts 'D' ['O', 'N', 'E'] rest (by decide) hhd hDone)
      (by decide) hnl]
    show replaceMarkersL todoAlts uncheckedRepl
      ('-' :: ' ' :: '-' :: (' ' :: '[' :: 'x' :: ']' :: ' ' :: rest)) =
      ['-', ' '] ++ checkedRepl ++ rest
    rw [replaceMarkersL_nomatch todoAlts uncheckedRepl _
      (matchMarkerAt_dash_none todoAlts '-' _ (by decide)
        (matchAlt_todo_head_false '-' (by decide) (by decide) (by decide) (by decide) _))
      (by
        intro c hc
        rcases List.mem_cons.mp hc with rfl | hc2
        · decide
        · rcases List.mem_cons.mp hc2 with rfl | hc3
          · decide
          · rcases List.mem_cons.mp hc3 with rfl | hc4
            · decide
            · rcases List.mem_cons.mp hc4 with rfl | hc5
              · decide
              · exact hOut1 c hc5)]
    rfl

/-- C2: applying the Task-Marker ContentReplace fix rewrites every line
consisting of an optional list dash, an open/in-progress/scheduled marker,
a space and a terminator-free remainder (not itself starting with
whitespace) into the same prefix followed by the unchecked-task prefix and
the untouched remainder; a `DONE` line likewise gets the checked-task
prefix; in particular `TODO buy milk` becomes `- [ ] buy milk`,
`DONE buy milk` becomes `- [x] buy milk`, and matching is
case-insensitive (`todo buy milk` also becomes `- [ ] buy milk`). -/
theorem taskMarkerFix_spec :
    (∀ mk ∈ todoAlts, ∀ (d : Bool) (rest : List Char),
        (∀ c ∈ rest, isNewlineChar c = false) →
        (∀ c, rest.head? = some c → isWsChar c = false) →
        applyTaskMarkerFix (String.mk (linePre d ++ mk ++ ' ' :: rest)) =
          String.mk (linePre d ++ uncheckedRepl ++ rest)) ∧
    (∀ (d : Bool) (rest : List Char),
        (∀ c ∈ rest, isNewlineChar c = false) →
        (∀ c, rest.head? = some c → isWsChar c = false) →
        applyTaskMarkerFix (String.mk (linePre d ++ ['D', 'O', 'N', 'E'] ++ ' ' :: rest)) =
          String.mk (linePre d ++ checkedRepl ++ rest)) ∧
    applyTaskMarkerFix "TODO buy milk" = "- [ ] buy milk" ∧
    applyTaskMarkerFix "DONE buy milk" = "- [x] buy milk" ∧
    applyTaskMarkerFix "todo buy milk" = "- [ ] buy milk" := by
  refine ⟨?_, ?_, by decide, by decide, by decide⟩
  · intro mk hmk d rest hnl hhd
    simp only [todoAlts, List.mem_cons, List.not_mem_nil, or_false] at hmk
    rcases hmk with rfl | rfl | rfl | rfl
    all_goals
      exact congrArg String.mk
        (taskFix_open_core _ _ d rest hnl hhd (by decide) (by decide) (by decide)
          (fun r => matchAlt_done_of_todo _ (by decide) r)
          (fun r => matchAlt_todo_self _ (by decide) r))
  · intro d rest hnl hhd
    exact congrArg String.mk (taskFix_done_core d rest hnl hhd)

/-- C2 witness: concrete instantiation of the general conjuncts at the
marker `LATER`, a dashed `DONE` line, and the remainder `call mom`. -/
theorem taskMarkerFix_spec_witness :
    applyTaskMarkerFix (String.mk (linePre false ++ ['L', 'A', 'T', 'E', 'R'] ++ ' ' ::
        ['c', 'a', 'l', 'l'])) =
      String.mk (linePre false ++ uncheckedRepl ++ ['c', 'a', 'l', 'l']) ∧
    applyTaskMarkerFix (String.mk (linePre true ++ ['D', 'O', 'N', 'E'] ++ ' ' ::
        ['c', 'a', 'l', 'l'])) =
      String.mk (linePre true ++ checkedRepl ++ ['c', 'a', 'l', 'l']) := by
  constructor
  · exact taskMarkerFix_spec.1 ['L', 'A', 'T', 'E', 'R'] (by decide) false
      ['c', 'a', 'l', 'l'] (by decide) (by decide)
  · exact taskMarkerFix_spec.2.1 true ['c', 'a', 'l', 'l'] (by decide) (by decide)

/-- helper: a list is a Boolean prefix of itself extended. -/
theorem isPrefixOf_append_self (p l : List Char) : p.isPrefixOf (p ++ l) = true :=
  List.isPrefixOf_iff_prefix.mpr (List.prefix_append p l)

/-- helper: the Boolean prefix test is monotone under extension. -/
theorem isPrefixOf_mono (p : List Char) :
    ∀ (l X : List Char), p.isPrefixOf l = true → p.isPrefixOf (l ++ X) = true := by
  induction p with
  | nil => intro l X _; simp [List.isPrefixOf]
  | cons a t ih =>
    intro l X h
    cases l with
    | nil => simp [List.isPrefixOf] at h
    | cons b u =>
      simp only [List.isPrefixOf, Bool.and_eq_true] at h ⊢
      exact ⟨h.1, ih u X h.2⟩

/-- helper: the Boolean prefix test only reads the first `p.length`
characters. -/
theorem isPrefixOf_stable (p : List Char) :
    ∀ (l X : List Char), p.length ≤ l.length →
      p.isPrefixOf (l ++ X) = p.isPrefixOf l := by
  induction p with
  | nil => intro l X _; simp [List.isPrefixOf]
  | cons a t ih =>
    intro l X hlen
    cases l with
    | nil => simp at hlen
    | cons b u =>
      simp only [List.cons_append, List.isPrefixOf, List.append_eq]
      rw [ih u X (by simpa using hlen)]

/-- helper: span decomposition of takeWhile/dropWhile over an append whose
left part satisfies the predicate and whose right part starts failing it. -/
theorem takeWhile_append_span {p : Char → Bool} (s l : List Char)
    (hs : ∀ c ∈ s, p c = true) (hl : ∀ c, l.head? = some c → p c = false) :
    (s ++ l).takeWhile p = s ∧ (s ++ l).dropWhile p = l := by
  induction s with
  | nil => exact ⟨takeWhile_head_false l hl, dropWhile_head_false l hl⟩
  | cons a t ih =>
    have ha : p a = true := hs a (List.mem_cons_self a t)
    have iht := ih (fun c hc => hs c (List.mem_cons_of_mem a hc))
    constructor
    · rw [List.cons_append, List.takeWhile_cons, ha, if_pos rfl, iht.1]
    · rw [List.cons_append, List.dropWhile_cons, ha, if_pos rfl, iht.2]

/-- helper: the favorites pattern matches a well-formed span, consuming the
key, the whitespace run, the bracketed capture and the closing bracket. -/
theorem matchFavAt_span (ws inner post : List Char)
    (hws : ∀ c ∈ ws, isWsChar c = true)
    (hinner : ∀ c ∈ inner, ¬c = ']') :
    matchFavAt (favKey ++ (ws ++ '[' :: (inner ++ ']' :: post))) =
      some (favKey ++ ws ++ '[' :: (inner ++ [']']), inner, post) := by
  have h1 := isPrefixOf_append_self favKey (ws ++ '[' :: (inner ++ ']' :: post))
  have h2 : (favKey ++ (ws ++ '[' :: (inner ++ ']' :: post))).drop favKey.length =
      ws ++ '[' :: (inner ++ ']' :: post) := List.drop_left favKey _
  have h3 := takeWhile_append_span (p := isWsChar) ws ('[' :: (inner ++ ']' :: post))
    hws (by intro c hc; simp only [List.head?_cons, Option.some.injEq] at hc; subst hc; decide)
  have h4 := takeWhile_append_span (p := fun x => !(x = ']')) inner (']' :: post)
    (by
      intro c hc
      simp only [Bool.not_eq_true', decide_eq_false_iff_not]
      exact hinner c hc)
    (by intro c hc; simp only [List.head?_cons, Option.some.injEq] at hc; subst hc; decide)
  simp only [matchFavAt, h1, if_pos rfl, h2, h3.1, h3.2, h4.1, h4.2]
  simp

/-- helper: no pattern match where the key is not a prefix. -/
theorem matchFavAt_none (l : List Char) (h : favKey.isPrefixOf l = false) :
    matchFavAt l = none := by
  simp [matchFavAt, h]

/-- helper: the leftmost scan finds the match right after a prefix free of
key occurrences (also straddling ones). -/
theorem findFavGo_append (pre : List Char) :
    ∀ (rest0 whole inner post : List Char),
      matchFavAt rest0 = some (whole, inner, post) →
      favKey.isPrefixOf rest0 = true →
      (∀ i, i < pre.length → favKey.isPrefixOf ((pre ++ favKey).drop i) = false) →
      findFavGo (pre ++ rest0) = some (pre, whole, inner, post) := by
  induction pre with
  | nil =>
    intro rest0 whole inner post hm hkey _
    cases rest0 with
    | nil => rw [show matchFavAt [] = none from by decide] at hm; cases hm
    | cons c cs =>
      show findFavGo (c :: cs) = _
      simp only [findFavGo, hm]
  | cons a pre' ih =>
    intro rest0 whole inner post hm hkey hpre
    obtain ⟨t0, rfl⟩ : ∃ t0, rest0 = favKey ++ t0 := by
      obtain ⟨t0, h⟩ := List.isPrefixOf_iff_prefix.mp hkey
      exact ⟨t0, h.symm⟩
    have h0 : favKey.isPrefixOf ((a :: pre') ++ favKey) = false := by
      have := hpre 0 (by simp)
      simpa using this
    have h0' : favKey.isPrefixOf ((a :: pre') ++ (favKey ++ t0)) = false := by
      rw [← List.append_assoc]
      rw [isPrefixOf_stable favKey ((a :: pre') ++ favKey) t0 (by simp [favKey])]
      exact h0
    have hnone : matchFavAt ((a :: pre') ++ (favKey ++ t0)) = none :=
      matchFavAt_none _ h0'
    show findFavGo (a :: (pre' ++ (favKey ++ t0))) = _
    rw [show findFavGo (a :: (pre' ++ (favKey ++ t0))) =
        match matchFavAt (a :: (pre' ++ (favKey ++ t0))) with
        | some (whole, inner, post) => some ([], whole, inner, post)
        | none => (findFavGo (pre' ++ (favKey ++ t0))).map (fun r => (a :: r.1, r.2))
      from rfl]
    rw [show (a :: (pre' ++ (favKey ++ t0))) = ((a :: pre') ++ (favKey ++ t0)) from rfl,
      hnone]
    rw [ih (favKey ++ t0) whole inner post hm (isPrefixOf_append_self favKey t0)
      (by
        intro i hi
        have := hpre (i + 1) (by simpa using Nat.succ_lt_succ hi)
        simpa using this)]
    rfl

/-- helper: the scan fails when the key is a prefix at no position. -/
theorem findFavGo_none (l : List Char)
    (h : ∀ i, i < l.length → favKey.isPrefixOf (l.drop i) = false) :
    findFavGo l = none := by
  induction l with
  | nil => rfl
  | cons c cs ih =>
    have h0 : favKey.isPrefixOf (c :: cs) = false := by
      have := h 0 (by simp)
      simpa using this
    simp only [findFavGo, matchFavAt_none _ h0]
    rw [ih (fun i hi => by
      have := h (i + 1) (by simpa using Nat.succ_lt_succ hi)
      simpa using this)]
    rfl

/-- helper: `quotedGo` on empty input. -/
theorem quotedGo_nil (f : Nat) : quotedGo f [] = [] := by
  cases f <;> rfl

/-- helper: `quotedGo` skips a non-quote character. -/
theorem quotedGo_skip (c : Char) (hc : ¬c = '"') (l : List Char) (f : Nat) :
    quotedGo (f + 1) (c :: l) = quotedGo f l := by
  simp [quotedGo, hc]

/-- helper: `quotedGo` extracts a well-formed quoted token and resumes
after the closing quote. -/
theorem quotedGo_emit (n r2 : List Char) (hne : n ≠ [])
    (hq : ∀ c ∈ n, ¬c = '"') (f : Nat) :
    quotedGo (f + 1) ('"' :: (n ++ '"' :: r2)) = n :: quotedGo f r2 := by
  have hspan := takeWhile_append_span (p := fun x => !(x = '"')) n ('"' :: r2)
    (by
      intro c hc
      simp only [Bool.not_eq_true', decide_eq_false_iff_not]
      exact hq c hc)
    (by intro c hc; simp only [List.head?_cons, Option.some.injEq] at hc; subst hc; decide)
  cases n with
  | nil => exact absurd rfl hne
  | cons x xs =>
    simp only [quotedGo, if_pos rfl, hspan.1, hspan.2]
    simp

/-- helper: the fuel of `quotedGo` is irrelevant once it covers the input
length. -/
theorem quotedGo_fuel :
    ∀ (f1 f2 : Nat) (l : List Char), l.length ≤ f1 → l.length ≤ f2 →
      quotedGo f1 l = quotedGo f2 l := by
  intro f1
  induction f1 with
  | zero =>
    intro f2 l h1 _
    have hl : l = [] := List.eq_nil_of_length_eq_zero (Nat.le_zero.mp h1)
    subst hl
    rw [quotedGo_nil, quotedGo_nil]
  | succ g ih =>
    intro f2 l h1 h2
    cases l with
    | nil => rw [quotedGo_nil, quotedGo_nil]
    | cons c cs =>
      cases f2 with
      | zero => simp at h2
      | succ g2 =>
        have hcs1 : cs.length ≤ g := by simpa using h1
        have hcs2 : cs.length ≤ g2 := by simpa using h2
        by_cases hc : c = '"'
        · subst hc
          simp only [quotedGo, if_pos rfl]
          cases htok : cs.takeWhile (fun x => !(x = '"')) with
          | nil => exact ih g2 _ hcs1 hcs2
          | cons x xs =>
            cases hdrop : cs.dropWhile (fun x => !(x = '"')) with
            | nil => exact ih g2 _ hcs1 hcs2
            | cons y r2 =>
              have hr2 : r2.length ≤ cs.length := by
                have hsub := (List.dropWhile_sublist (l := cs) (p := fun x => !(x = '"'))).length_le
                rw [hdrop] at hsub
                simp only [List.length_cons] at hsub
                omega
              exact congrArg (List.cons (x :: xs))
                (ih g2 r2 (by omega) (by omega))
        · rw [quotedGo_skip c hc cs g, quotedGo_skip c hc cs g2]
          exact ih g2 cs hcs1 hcs2

/-- helper: `serializeFavs` on a one-name and a two-or-more-name list. -/
theorem serializeFavs_cons_cons (n m : String) (t : List String) :
    serializeFavs (n :: m :: t) = quoteName n ++ ' ' :: serializeFavs (m :: t) := by
  simp [serializeFavs, List.intercalate, List.intersperse]

/-- helper: every token of a capture is nonempty and quote-free. -/
theorem quotedGo_tok_props :
    ∀ (f : Nat) (l t : List Char), t ∈ quotedGo f l →
      t ≠ [] ∧ ∀ c ∈ t, ¬c = '"' := by
  intro f
  induction f with
  | zero => intro l t ht; simp [quotedGo] at ht
  | succ g ih =>
    intro l t ht
    cases l with
    | nil => simp [quotedGo_nil] at ht
    | cons c cs =>
      by_cases hc : c = '"'
      · subst hc
        simp only [quotedGo, if_pos rfl] at ht
        cases htok : cs.takeWhile (fun x => !(x = '"')) with
        | nil =>
          rw [htok] at ht
          exact ih cs t ht
        | cons x xs =>
          rw [htok] at ht
          cases hdrop : cs.dropWhile (fun x => !(x = '"')) with
          | nil =>
            rw [hdrop] at ht
            exact ih cs t ht
          | cons y r2 =>
            rw [hdrop] at ht
            rcases List.mem_cons.mp ht with rfl | ht2
            · refine ⟨by simp, ?_⟩
              intro ch hch
              have hmem : ch ∈ cs.takeWhile (fun x => !(x = '"')) := htok ▸ hch
              have := List.mem_takeWhile_imp hmem
              simpa using this
            · exact ih r2 t ht2
      · rw [quotedGo_skip c hc cs g] at ht
        exact ih cs t ht

/-- helper: every character of every token occurs in the capture. -/
theorem quotedGo_sub :
    ∀ (f : Nat) (l t : List Char), t ∈ quotedGo f l → ∀ c ∈ t, c ∈ l := by
  intro f
  induction f with
  | zero => intro l t ht; simp [quotedGo] at ht
  | succ g ih =>
    intro l t ht c hct
    cases l with
    | nil => simp [quotedGo_nil] at ht
    | cons c0 cs =>
      by_cases hc : c0 = '"'
      · subst hc
        simp only [quotedGo, if_pos rfl] at ht
        cases htok : cs.takeWhile (fun x => !(x = '"')) with
        | nil =>
          rw [htok] at ht
          exact List.mem_cons_of_mem _ (ih cs t ht c hct)
        | cons x xs =>
          rw [htok] at ht
          cases hdrop : cs.dropWhile (fun x => !(x = '"')) with
          | nil =>
            rw [hdrop] at ht
            exact List.mem_cons_of_mem _ (ih cs t ht c hct)
          | cons y r2 =>
            rw [hdrop] at ht
            rcases List.mem_cons.mp ht with rfl | ht2
            · have hmem : c ∈ cs.takeWhile (fun x => !(x = '"')) := htok ▸ hct
              exact List.mem_cons_of_mem _
                ((List.takeWhile_sublist (p := fun x => !(x = '"'))).subset hmem)
            · have hcr2 : c ∈ r2 := ih r2 t ht2 c hct
              have : c ∈ cs.dropWhile (fun x => !(x = '"')) := by
                rw [hdrop]
                exact List.mem_cons_of_mem _ hcr2
              exact List.mem_cons_of_mem _
                ((List.dropWhile_sublist (p := fun x => !(x = '"'))).subset this)
      · rw [quotedGo_skip c0 hc cs g] at ht
        exact List.mem_cons_of_mem _ (ih cs t ht c hct)

/-- helper: tokenizing a serialized name list with enough fuel returns the
names. -/
theorem quotedGo_serialize :
    ∀ (names : List String),
      (∀ n ∈ names, n.data ≠ [] ∧ ∀ c ∈ n.data, ¬c = '"') →
      ∀ f : Nat, (serializeFavs names).length ≤ f →
        quotedGo f (serializeFavs names) = names.map String.data := by
  intro names
  induction names with
  | nil => intro _ f _; rw [show serializeFavs [] = [] from rfl, quotedGo_nil]; rfl
  | cons n ns ih =>
    intro h f hf
    have hn := h n (List.mem_cons_self n ns)
    cases ns with
    | nil =>
      have hser : serializeFavs [n] = '"' :: (n.data ++ '"' :: []) := by
        simp [serializeFavs, List.intercalate, List.intersperse, quoteName]
      rw [hser] at hf ⊢
      have hlen : n.data.length + 2 ≤ f := by
        simpa [List.length_append] using hf
      obtain ⟨f', rfl⟩ : ∃ f', f = f' + 1 := ⟨f - 1, by omega⟩
      rw [quotedGo_emit n.data [] hn.1 hn.2 f', quotedGo_nil]
      rfl
    | cons m t =>
      have hser : serializeFavs (n :: m :: t) =
          '"' :: (n.data ++ '"' :: (' ' :: serializeFavs (m :: t))) := by
        rw [serializeFavs_cons_cons]
        simp [quoteName]
      rw [hser] at hf ⊢
      have hlen : n.data.length + 3 + (serializeFavs (m :: t)).length ≤ f := by
        simp only [List.length_cons, List.length_append] at hf
        omega
      obtain ⟨f', rfl⟩ : ∃ f', f = f' + 1 := ⟨f - 1, by omega⟩
      rw [quotedGo_emit n.data (' ' :: serializeFavs (m :: t)) hn.1 hn.2 f']
      obtain ⟨f'', rfl⟩ : ∃ f'', f' = f'' + 1 := ⟨f' - 1, by omega⟩
      rw [quotedGo_skip ' ' (by decide) _ f'']
      rw [ih (fun x hx => h x (List.mem_cons_of_mem n hx)) f'' (by omega)]
      rfl

/-- helper: the characters of a serialized name list. -/
theorem mem_serializeFavs (names : List String) (c : Char) :
    c ∈ serializeFavs names → c = '"' ∨ c = ' ' ∨ ∃ n ∈ names, c ∈ n.data := by
  induction names with
  | nil => intro hc; simp [serializeFavs, List.intercalate, List.intersperse] at hc
  | cons n ns ih =>
    intro hc
    cases ns with
    | nil =>
      have hser : serializeFavs [n] = '"' :: (n.data ++ '"' :: []) := by
        simp [serializeFavs, List.intercalate, List.intersperse, quoteName]
      rw [hser] at hc
      rcases List.mem_cons.mp hc with rfl | hc2
      · exact Or.inl rfl
      · rcases List.mem_append.mp hc2 with h | h
        · exact Or.inr (Or.inr ⟨n, List.mem_cons_self n [], h⟩)
        · rcases List.mem_cons.mp h with rfl | h2
          · exact Or.inl rfl
          · simp at h2
    | cons m t =>
      rw [serializeFavs_cons_cons] at hc
      rcases List.mem_append.mp hc with h | h
      · rcases List.mem_cons.mp h with rfl | h2
        · exact Or.inl rfl
        · rcases List.mem_append.mp h2 with h3 | h3
          · exact Or.inr (Or.inr ⟨n, List.mem_cons_self n _, h3⟩)
          · rcases List.mem_cons.mp h3 with rfl | h4
            · exact Or.inl rfl
            · simp at h4
      · rcases List.mem_cons.mp h with rfl | h2
        · exact Or.inr (Or.inl rfl)
        · rcases ih h2 with h3 | h3 | ⟨x, hx, hcx⟩
          · exact Or.inl h3
          · exact Or.inr (Or.inl h3)
          · exact Or.inr (Or.inr ⟨x, List.mem_cons_of_mem n hx, hcx⟩)

/-- helper: dollar-substitution is the identity on a dollar-free
replacement string. -/
theorem substDollar_no_dollar (whole before after g1 : List Char) :
    ∀ (f : Nat) (l : List Char), (∀ c ∈ l, ¬c = '$') →
      substDollar whole before after g1 f l = l := by
  intro f
  induction f with
  | zero => intro l _; cases l <;> rfl
  | succ g ih =>
    intro l hl
    cases l with
    | nil => rfl
    | cons c cs =>
      have hc : ¬c = '$' := hl c (List.mem_cons_self c cs)
      simp only [substDollar, if_neg hc]
      exact congrArg (c :: ·) (ih cs (fun x hx => hl x (List.mem_cons_of_mem c hx)))

/-- helper: membership in a `Set`-style dedup. -/
theorem dedupGo_mem :
    ∀ (l seen : List String) (x : String),
      x ∈ dedupGo seen l ↔ (x ∈ l ∧ x ∉ seen) := by
  intro l
  induction l with
  | nil => intro seen x; simp [dedupGo]
  | cons a t ih =>
    intro seen x
    by_cases ha : a ∈ seen
    · rw [show dedupGo seen (a :: t) = dedupGo seen t from by simp [dedupGo, ha]]
      rw [ih seen x]
      constructor
      · rintro ⟨hx, hxs⟩
        exact ⟨List.mem_cons_of_mem a hx, hxs⟩
      · rintro ⟨hx, hxs⟩
        rcases List.mem_cons.mp hx with rfl | hx2
        · exact absurd ha hxs
        · exact ⟨hx2, hxs⟩
    · rw [show dedupGo seen (a :: t) = a :: dedupGo (a :: seen) t from by
        simp [dedupGo, ha]]
      constructor
      · intro hx
        rcases List.mem_cons.mp hx with rfl | hx2
        · exact ⟨List.mem_cons_self _ _, ha⟩
        · have := (ih (a :: seen) x).mp hx2
          exact ⟨List.mem_cons_of_mem a this.1,
            fun hc => this.2 (List.mem_cons_of_mem a hc)⟩
      · rintro ⟨hx, hxs⟩
        rcases List.mem_cons.mp hx with rfl | hx2
        · exact List.mem_cons_self _ _
        · by_cases hxa : x = a
          · subst hxa
            exact List.mem_cons_self _ _
          · exact List.mem_cons_of_mem a ((ih (a :: seen) x).mpr
              ⟨hx2, by
                intro hc
                rcases List.mem_cons.mp hc with h | h
                · exact hxa h
                · exact hxs h⟩)

/-- helper: a `Set`-style dedup has no duplicates. -/
theorem dedupGo_nodup : ∀ (l seen : List String), (dedupGo seen l).Nodup := by
  intro l
  induction l with
  | nil => intro seen; simp [dedupGo]
  | cons a t ih =>
    intro seen
    by_cases ha : a ∈ seen
    · rw [show dedupGo seen (a :: t) = dedupGo seen t from by simp [dedupGo, ha]]
      exact ih seen
    · rw [show dedupGo seen (a :: t) = a :: dedupGo (a :: seen) t from by
        simp [dedupGo, ha]]
      refine List.nodup_cons.mpr ⟨?_, ih (a :: seen)⟩
      intro hc
      exact ((dedupGo_mem t (a :: seen) a).mp hc).2 (List.mem_cons_self a seen)

/-- helper: mapping `String.mk` over `String.data` images is the
identity. -/
theorem map_mk_map_data (l : List String) :
    (l.map String.data).map (fun t => String.mk t) = l := by
  rw [List.map_map]
  have h : ((fun t => String.mk t) ∘ String.data) = id := funext (fun s => rfl)
  rw [h, List.map_id]

/-- helper: membership in the merged sorted favorite list. -/
theorem mem_sortedMergedFavs (text : List Char) (toAdd : List String)
    (n : String) :
    n ∈ sortedMergedFavs text toAdd ↔
      (n ∈ extractFavoritesNames text ∨ n ∈ toAdd) := by
  unfold sortedMergedFavs
  rw [(List.perm_insertionSort _ _).mem_iff]
  rw [show dedupFirst (extractFavoritesNames text ++ toAdd) =
    dedupGo [] (extractFavoritesNames text ++ toAdd) from rfl]
  rw [dedupGo_mem]
  simp

/-- helper: the merged sorted favorite list has no duplicates. -/
theorem sortedMergedFavs_nodup (text : List Char) (toAdd : List String) :
    (sortedMergedFavs text toAdd).Nodup := by
  unfold sortedMergedFavs
  exact (List.perm_insertionSort _ _).nodup_iff.mpr (dedupGo_nodup _ [])

/-- helper: the merged sorted favorite list is sorted ascending. -/
theorem sortedMergedFavs_sorted (text : List Char) (toAdd : List String) :
    (sortedMergedFavs text toAdd).Sorted (fun a b => a ≤ b) := by
  unfold sortedMergedFavs
  exact List.sorted_insertionSort _ _

/-- C4: writing favorites back into a config text whose (first) favorites
key span is `pre ++ ":favorites" ++ ws ++ "[" ++ inner ++ "]" ++ post` —
with no occurrence of the literal `:favorites` starting inside `pre`, and
names free of quote, bracket and dollar characters — substitutes exactly
the merged-sorted serialized list into the key's span, leaves `pre` and
`post` byte-for-byte unchanged, and re-extracting from the result yields
each merged name exactly once, sorted ascending; when the key is absent
(and the trimmed text does not end in a closing brace) the key is appended
at the end instead. -/
theorem writeFavorites_roundTrip (pre ws inner post : List Char)
    (toAdd : List String)
    (hpre : ∀ i, i < pre.length → favKey.isPrefixOf ((pre ++ favKey).drop i) = false)
    (hws : ∀ c ∈ ws, isWsChar c = true)
    (hinner : ∀ c ∈ inner, ¬c = ']')
    (hinnerd : ∀ c ∈ inner, ¬c = '$')
    (htoAdd : ∀ n ∈ toAdd, n.data ≠ [] ∧ ∀ c ∈ n.data, ¬c = '"' ∧ ¬c = ']' ∧ ¬c = '$') :
    writeFavoritesToConfig (pre ++ (favKey ++ (ws ++ '[' :: (inner ++ ']' :: post)))) toAdd =
      pre ++ favReplacement (serializeFavs
        (sortedMergedFavs (pre ++ (favKey ++ (ws ++ '[' :: (inner ++ ']' :: post)))) toAdd)) ++ post ∧
    extractFavoritesNames
        (writeFavoritesToConfig (pre ++ (favKey ++ (ws ++ '[' :: (inner ++ ']' :: post)))) toAdd) =
      sortedMergedFavs (pre ++ (favKey ++ (ws ++ '[' :: (inner ++ ']' :: post)))) toAdd ∧
    (sortedMergedFavs (pre ++ (favKey ++ (ws ++ '[' :: (inner ++ ']' :: post)))) toAdd).Nodup ∧
    (sortedMergedFavs (pre ++ (favKey ++ (ws ++ '[' :: (inner ++ ']' :: post)))) toAdd).Sorted
      (fun a b => a ≤ b) ∧
    (∀ n, n ∈ sortedMergedFavs (pre ++ (favKey ++ (ws ++ '[' :: (inner ++ ']' :: post)))) toAdd ↔
      (n ∈ extractFavoritesNames (pre ++ (favKey ++ (ws ++ '[' :: (inner ++ ']' :: post)))) ∨
        n ∈ toAdd)) ∧
    (∀ text2, findFavGo text2 = none →
      ¬(jsTrimWs text2).getLast? = some (Char.ofNat 125) →
      writeFavoritesToConfig text2 toAdd =
        text2 ++ '\n' :: favReplacement (serializeFavs (sortedMergedFavs text2 toAdd))) := by
  have hm := matchFavAt_span ws inner post hws hinner
  have hfind : findFavGo (pre ++ (favKey ++ (ws ++ '[' :: (inner ++ ']' :: post)))) =
      some (pre, favKey ++ ws ++ '[' :: (inner ++ [']']), inner, post) :=
    findFavGo_append pre _ _ _ _ hm (isPrefixOf_append_self favKey _) hpre
  have hextract : extractFavoritesNames (pre ++ (favKey ++ (ws ++ '[' :: (inner ++ ']' :: post)))) =
      (quotedTokens inner).map (fun t => String.mk t) := by
    simp only [extractFavoritesNames, hfind]
  have hexist_props : ∀ n ∈ extractFavoritesNames
      (pre ++ (favKey ++ (ws ++ '[' :: (inner ++ ']' :: post)))),
      n.data ≠ [] ∧ ∀ c ∈ n.data, ¬c = '"' ∧ ¬c = ']' ∧ ¬c = '$' := by
    intro n hn
    rw [hextract] at hn
    obtain ⟨t, ht, rfl⟩ := List.mem_map.mp hn
    have hp := quotedGo_tok_props inner.length inner t ht
    have hs := quotedGo_sub inner.length inner t ht
    refine ⟨hp.1, ?_⟩
    intro c hc
    exact ⟨hp.2 c hc, hinner c (hs c hc), hinnerd c (hs c hc)⟩
  have hM_props : ∀ n ∈ sortedMergedFavs
      (pre ++ (favKey ++ (ws ++ '[' :: (inner ++ ']' :: post)))) toAdd,
      n.data ≠ [] ∧ ∀ c ∈ n.data, ¬c = '"' ∧ ¬c = ']' ∧ ¬c = '$' := by
    intro n hn
    rcases (mem_sortedMergedFavs _ _ n).mp hn with h | h
    · exact hexist_props n h
    · exact htoAdd n h
  have harr_ket : ∀ c ∈ serializeFavs (sortedMergedFavs
      (pre ++ (favKey ++ (ws ++ '[' :: (inner ++ ']' :: post)))) toAdd), ¬c = ']' := by
    intro c hc
    rcases mem_serializeFavs _ c hc with rfl | rfl | ⟨n, hn, hcn⟩
    · decide
    · decide
    · exact ((hM_props n hn).2 c hcn).2.1
  have hrepl_nodollar : ∀ c ∈ favReplacement (serializeFavs (sortedMergedFavs
      (pre ++ (favKey ++ (ws ++ '[' :: (inner ++ ']' :: post)))) toAdd)), ¬c = '$' := by
    intro c hc
    unfold favReplacement at hc
    rcases List.mem_append.mp hc with h | h
    · have hfav : ∀ x ∈ favKey, ¬x = '$' := by decide
      exact hfav c h
    · rcases List.mem_cons.mp h with rfl | h2
      · decide
      · rcases List.mem_cons.mp h2 with rfl | h3
        · decide
        · rcases List.mem_append.mp h3 with h4 | h4
          · rcases mem_serializeFavs _ c h4 with rfl | rfl | ⟨n, hn, hcn⟩
            · decide
            · decide
            · exact ((hM_props n hn).2 c hcn).2.2
          · rcases List.mem_singleton.mp h4 with rfl
            decide
  have hwrite : writeFavoritesToConfig
      (pre ++ (favKey ++ (ws ++ '[' :: (inner ++ ']' :: post)))) toAdd =
      pre ++ favReplacement (serializeFavs (sortedMergedFavs
        (pre ++ (favKey ++ (ws ++ '[' :: (inner ++ ']' :: post)))) toAdd)) ++ post := by
    simp only [writeFavoritesToConfig, hfind]
    rw [substDollar_no_dollar _ _ _ _ _ _ hrepl_nodollar]
  have hshape : pre ++ favReplacement (serializeFavs (sortedMergedFavs
      (pre ++ (favKey ++ (ws ++ '[' :: (inner ++ ']' :: post)))) toAdd)) ++ post =
      pre ++ (favKey ++ ([' '] ++ '[' :: (serializeFavs (sortedMergedFavs
        (pre ++ (favKey ++ (ws ++ '[' :: (inner ++ ']' :: post)))) toAdd) ++ ']' :: post))) := by
    simp [favReplacement, List.append_assoc]
  have hfind2 : findFavGo (pre ++ favReplacement (serializeFavs (sortedMergedFavs
      (pre ++ (favKey ++ (ws ++ '[' :: (inner ++ ']' :: post)))) toAdd)) ++ post) =
      some (pre, favKey ++ [' '] ++ '[' :: (serializeFavs (sortedMergedFavs
        (pre ++ (favKey ++ (ws ++ '[' :: (inner ++ ']' :: post)))) toAdd) ++ [']']),
        serializeFavs (sortedMergedFavs
          (pre ++ (favKey ++ (ws ++ '[' :: (inner ++ ']' :: post)))) toAdd), post) := by
    rw [hshape]
    exact findFavGo_append pre _ _ _ _
      (matchFavAt_span [' '] _ post (by decide) harr_ket)
      (isPrefixOf_append_self favKey _) hpre
  refine ⟨hwrite, ?_, sortedMergedFavs_nodup _ _, sortedMergedFavs_sorted _ _,
    mem_sortedMergedFavs _ _, ?_⟩
  · rw [hwrite]
    simp only [extractFavoritesNames, hfind2]
    rw [show quotedTokens (serializeFavs (sortedMergedFavs
        (pre ++ (favKey ++ (ws ++ '[' :: (inner ++ ']' :: post)))) toAdd) ) =
      (sortedMergedFavs (pre ++ (favKey ++ (ws ++ '[' :: (inner ++ ']' :: post)))) toAdd).map
        String.data from
      quotedGo_serialize _ (fun n hn => ⟨(hM_props n hn).1,
        fun c hc => ((hM_props n hn).2 c hc).1⟩) _ (Nat.le_refl _)]
    exact map_mk_map_data _
  · intro text2 h1 h2
    simp only [writeFavoritesToConfig, h1]
    rw [if_neg h2]

/-- C4 witness: a config with an existing `[ "a" ]` list after a comment
line, adding the name `b`. -/
theorem writeFavorites_roundTrip_witness :
    extractFavoritesNames ((";; c\n").data ++ (favKey ++ ([' '] ++ '[' ::
        ([' ', '"', 'a', '"', ' '] ++ ']' :: ['\n'])))) = [String.mk ['a']] ∧
    extractFavoritesNames
        (writeFavoritesToConfig ((";; c\n").data ++ (favKey ++ ([' '] ++ '[' ::
          ([' ', '"', 'a', '"', ' '] ++ ']' :: ['\n']))))
          [String.mk ['b']]) =
      sortedMergedFavs ((";; c\n").data ++ (favKey ++ ([' '] ++ '[' ::
        ([' ', '"', 'a', '"', ' '] ++ ']' :: ['\n'])))) [String.mk ['b']] := by
  constructor
  · decide
  · exact (writeFavorites_roundTrip (";; c\n").data [' '] [' ', '"', 'a', '"', ' ']
      ['\n'] [String.mk ['b']] (by decide) (by decide) (by decide) (by decide)
      (by decide)).2.1

/-- C8 counterexample: the extraction does not strip comment lines, so a
comment containing a favorites-shaped span shadows the real key: on the
text `;; :favorites ["z"]` newline `:favorites [ "a" "b" ]` extraction
returns `{"z"}`, not `{"a","b"}`. -/
theorem extractFavorites_comment_counterexample :
    extractFavoritesNames (";; :favorites [\"z\"]\n:favorites [ \"a\" \"b\" ]").data =
      ["z"] ∧
    (["z"] : List String) ≠ ["a", "b"] := by
  exact ⟨by decide, by decide⟩

/-- C8 (amended): favorites extraction pattern-matches the raw text with
no comment stripping, so the first favorites-shaped span wins even inside
a comment; for every text `pre ++ ":favorites [ \"a\" \"b\" ]" ++ post`
where no occurrence of the literal `:favorites` starts inside `pre` — in
particular when the comment lines elsewhere do not mention the key —
extraction returns exactly `["a", "b"]`. -/
theorem extractFavorites_first_span (pre post : List Char)
    (hpre : ∀ i, i < pre.length → favKey.isPrefixOf ((pre ++ favKey).drop i) = false) :
    extractFavoritesNames (pre ++ (favKey ++ ([' '] ++ '[' ::
      ([' ', '"', 'a', '"', ' ', '"', 'b', '"', ' '] ++ ']' :: post)))) = ["a", "b"] := by
  have hfind := findFavGo_append pre _ _ _ _
    (matchFavAt_span [' '] [' ', '"', 'a', '"', ' ', '"', 'b', '"', ' '] post
      (by decide) (by decide))
    (isPrefixOf_append_self favKey _) hpre
  simp only [extractFavoritesNames, hfind]
  decide

/-- C8 witness: a comment line precedes the key. -/
theorem extractFavorites_first_span_witness :
    (∀ i, i < (";; hello\n").data.length →
      favKey.isPrefixOf (((";; hello\n").data ++ favKey).drop i) = false) ∧
    extractFavoritesNames ((";; hello\n").data ++ (favKey ++ ([' '] ++ '[' ::
      ([' ', '"', 'a', '"', ' ', '"', 'b', '"', ' '] ++ ']' :: [])))) = ["a", "b"] :=
  ⟨by decide, extractFavorites_first_span (";; hello\n").data [] (by decide)⟩

end Logseqer
